import Mathlib

/-!
# Pipeline editor: graph store, connection validator and DAG validator

A shallow embedding of `src/App.js`.  The component state (`nodes`, `edges`)
is an explicit `Graph` value and every handler is a function on it.

* Node ids are produced by `addNode` as the decimal string of the millisecond
  clock reading; decimal rendering is injective, so the reading itself
  (a natural number) stands for the id.
* JavaScript objects used as maps (`adj`, `visited`, `recStack`) are functions
  from keys to values; a missing key is `none` (for `adj`) or `false` (for
  the two marker maps, where `undefined` is only ever tested for truthiness).
* A `TypeError` raised by the code (`adj[e.source].push` or
  `for (... of adj[node])` on `undefined`) is the result `Except.error
  Fault.typeError`.
* The recursion of `hasCycle` is bounded by a fuel counter; running out of
  fuel is the result `Except.error Fault.outOfFuel`, which is proved never to
  occur for the fuel `validateDAG` supplies (`validateDAG_ne_outOfFuel`).
* `addEdge` belongs to the `reactflow` library and is modelled from the
  specification.
* `hasCycleLog` is `hasCycle` with a log of the node ids it is entered on; it
  returns the same result (`hasCycleLog_fst`) and serves to count the entries.
-/

namespace PipelineEditor

/-! ## Data model -/

/-- Identifier of a node: the millisecond clock reading whose decimal string is the id. -/
abbrev NodeId := Nat

/-- Canvas position of a node (`position: { x, y }`). -/
structure Position where
  x : Int
  y : Int
  deriving DecidableEq, Repr

/-- The arrowhead kinds of an edge marker. -/
inductive MarkerType where
  | Arrow
  | ArrowClosed
  deriving DecidableEq, Repr

/-- A node of the canvas: `{ id, data: { label }, position, selected }`. -/
structure Node where
  id : NodeId
  label : String
  position : Position
  selected : Bool
  deriving DecidableEq, Repr

/-- An edge of the canvas: `{ id, source, target, markerEnd, selected }`. -/
structure Edge where
  id : String
  source : NodeId
  target : NodeId
  markerEnd : Option MarkerType
  selected : Bool
  deriving DecidableEq, Repr

/-- The component state: the `nodes` and `edges` arrays. -/
structure Graph where
  nodes : List Node
  edges : List Edge
  deriving DecidableEq, Repr

/-- The initial state (`initialNodes = []`, `initialEdges = []`). -/
def Graph.empty : Graph := ⟨[], []⟩

/-! ## Connection validator -/

/-- The JavaScript values `isValidConnection` can return. -/
inductive JsVal where
  | jsFalse
  | undefined
  | obj (n : Node)
  deriving DecidableEq, Repr

/-- Truthiness of a returned value: `false` and `undefined` are falsy, an object is truthy. -/
def JsVal.truthy : JsVal → Bool
  | .jsFalse => false
  | .undefined => false
  | .obj _ => true

/-- The result of `nodes.find(n => n.id === k)`: the first match or `undefined`. -/
def findNode (nodes : List Node) (k : NodeId) : JsVal :=
  match nodes.find? (fun n => decide (n.id = k)) with
  | some n => .obj n
  | none => .undefined

/-- JavaScript `a && b`: `a` when it is falsy, else `b`. -/
def JsVal.and (a b : JsVal) : JsVal :=
  if a.truthy then b else a

/-- `isValidConnection({ source, target })` over the current `nodes`. -/
def isValidConnection (nodes : List Node) (source target : NodeId) : JsVal :=
  if source = target then .jsFalse
  else
    let fromNode := findNode nodes source
    let toNode := findNode nodes target
    JsVal.and fromNode toNode

/-! ## Graph store operations -/

/-- Modelled from the spec: `addEdge` of the `reactflow` library, which is not
part of the sources; per the spec it "does not re-validate, it only appends".
The id the library gives the new edge is the argument `eid`. -/
def addEdge (eid : String) (source target : NodeId) (marker : Option MarkerType)
    (eds : List Edge) : List Edge :=
  eds ++ [{ id := eid, source := source, target := target, markerEnd := marker,
            selected := false }]

/-- `onConnect(params)`: add the edge when `isValidConnection` accepts it. -/
def onConnect (g : Graph) (source target : NodeId) (eid : String) : Graph :=
  if (isValidConnection g.nodes source target).truthy then
    { g with edges := addEdge eid source target (some MarkerType.ArrowClosed) g.edges }
  else g

/-- `addNode()`: `label` is what `prompt` returned (`none` for `null`), `now` the
clock reading `+new Date()`, `pos` the position drawn with `Math.random`. -/
def addNode (g : Graph) (label : Option String) (now : Nat) (pos : Position) : Graph :=
  match label with
  | none => g
  | some l =>
    if l = "" then g
    else
      let newNode : Node := { id := now, label := l, position := pos, selected := false }
      { g with nodes := g.nodes ++ [newNode] }

/-- `handleDelete()`: drop the selected nodes and the selected edges. -/
def handleDelete (g : Graph) : Graph :=
  { nodes := g.nodes.filter (fun n => !n.selected),
    edges := g.edges.filter (fun e => !e.selected) }

/-! ## DAG validator -/

/-- The five status strings of `validateDAG`. -/
inductive Status where
  /-- The string `'Invalid: Need at least 2 nodes'`. -/
  | TooFewNodes
  /-- The string `'Invalid: Self-loop'`. -/
  | SelfLoop
  /-- The string `'Invalid: Cycle detected'`. -/
  | CycleDetected
  /-- The string `'Invalid: All nodes must be connected'`. -/
  | Disconnected
  /-- The string `'Valid DAG'`. -/
  | Valid
  deriving DecidableEq, Repr

deriving instance DecidableEq for Except

/-- Ways a run of the model can fail to produce a value. -/
inductive Fault where
  /-- A JavaScript `TypeError` (property access or iteration on `undefined`). -/
  | typeError
  /-- The recursion bound of the model was exhausted. -/
  | outOfFuel
  deriving DecidableEq, Repr

/-- The adjacency object `adj`: node id to the array of its out-neighbours. -/
abbrev Adj := NodeId → Option (List NodeId)

/-- The assignment `adj[k] = v`. -/
def Adj.set (adj : Adj) (k : NodeId) (v : List NodeId) : Adj :=
  fun j => if j = k then some v else adj j

/-- The loop `nodes.forEach((n) => (adj[n.id] = []))` run on `adj`. -/
def initAdj (adj : Adj) : List Node → Adj
  | [] => adj
  | n :: ns => initAdj (adj.set n.id []) ns

/-- The callback of `edges.forEach`: push the target, then `return` the self-loop
string from the callback when source equals target. -/
def edgeCallback (adj : Adj) (e : Edge) : Except Fault (Adj × Option Status) :=
  match adj e.source with
  | none => .error .typeError
  | some l =>
    let adj1 := adj.set e.source (l ++ [e.target])
    if e.source = e.target then .ok (adj1, some Status.SelfLoop)
    else .ok (adj1, none)

/-- The loop `edges.forEach(callback)`: the value a callback returns is discarded. -/
def forEachEdge (adj : Adj) : List Edge → Except Fault Adj
  | [] => .ok adj
  | e :: es =>
    match edgeCallback adj e with
    | .error f => .error f
    | .ok (adj1, _) => forEachEdge adj1 es

/-- The two marker objects `visited` and `recStack`. -/
structure Marks where
  visited : NodeId → Bool
  recStack : NodeId → Bool

/-- The assignment `m[k] = b` on a marker object. -/
def assign (m : NodeId → Bool) (k : NodeId) (b : Bool) : NodeId → Bool :=
  fun j => if j = k then b else m j

/-- The `for (let neighbor of adj[node])` loop of `hasCycle`, with the recursive
call passed as `call`. The result `true` is an early `return true`. -/
def forNeighbors (call : NodeId → Marks → Except Fault (Bool × Marks)) :
    List NodeId → Marks → Except Fault (Bool × Marks)
  | [], m => .ok (false, m)
  | nb :: rest, m =>
    if m.visited nb = false then
      match call nb m with
      | .error f => .error f
      | .ok (true, m1) => .ok (true, m1)
      | .ok (false, m1) =>
        if m1.recStack nb = true then .ok (true, m1)
        else forNeighbors call rest m1
    else if m.recStack nb = true then .ok (true, m)
    else forNeighbors call rest m

/-- The entry of `hasCycle`: `visited[node] = true; recStack[node] = true`. -/
def Marks.enter (m : Marks) (node : NodeId) : Marks :=
  { visited := assign m.visited node true, recStack := assign m.recStack node true }

/-- The exit of `hasCycle` after the loop: `recStack[node] = false`. -/
def Marks.leave (m : Marks) (node : NodeId) : Marks :=
  { visited := m.visited, recStack := assign m.recStack node false }

/-- The marker objects at the start of the search: `visited = {}`, `recStack = {}`. -/
def initMarks : Marks := { visited := fun _ => false, recStack := fun _ => false }

/-- The recursive closure `hasCycle(node)`, bounded by `fuel` nested calls. -/
def hasCycle (adj : Adj) : Nat → NodeId → Marks → Except Fault (Bool × Marks)
  | 0, _, _ => .error .outOfFuel
  | fuel + 1, node, m =>
    let m1 := m.enter node
    match adj node with
    | none => .error .typeError
    | some nbrs =>
      match forNeighbors (hasCycle adj fuel) nbrs m1 with
      | .error f => .error f
      | .ok (true, m2) => .ok (true, m2)
      | .ok (false, m2) => .ok (false, m2.leave node)

/-- The loop `for (let node of nodes)` of `validateDAG`: `true` when some call
of `hasCycle` returned `true`. -/
def cycleLoop (adj : Adj) (fuel : Nat) : List Node → Marks → Except Fault Bool
  | [], _ => .ok false
  | n :: ns, m =>
    if m.visited n.id = false then
      match hasCycle adj fuel n.id m with
      | .error f => .error f
      | .ok (true, _) => .ok true
      | .ok (false, m1) => cycleLoop adj fuel ns m1
    else cycleLoop adj fuel ns m

/-- Insertion into a JavaScript `Set` kept in insertion order. -/
def setAdd (s : List NodeId) (k : NodeId) : List NodeId :=
  if k ∈ s then s else s ++ [k]

/-- The set `new Set(nodes.map((n) => n.id))`. -/
def nodeIdSet (nodes : List Node) : List NodeId :=
  (nodes.map (fun n => n.id)).foldl setAdd []

/-- The set `connectedIds` after the second `edges.forEach`. -/
def connectedIdSet (edges : List Edge) : List NodeId :=
  edges.foldl (fun s e => setAdd (setAdd s e.source) e.target) []

/-- The recursion bound given to `hasCycle`: one more than the number of nodes. -/
def dfsFuel (g : Graph) : Nat := g.nodes.length + 1

/-- `validateDAG()` over the current `nodes` and `edges`. -/
def validateDAG (g : Graph) : Except Fault Status :=
  if g.nodes.length < 2 then .ok Status.TooFewNodes
  else
    match forEachEdge (initAdj (fun _ => none) g.nodes) g.edges with
    | .error f => .error f
    | .ok adj =>
      match cycleLoop adj (dfsFuel g) g.nodes initMarks with
      | .error f => .error f
      | .ok true => .ok Status.CycleDetected
      | .ok false =>
        let nodeIds := nodeIdSet g.nodes
        let connectedIds := connectedIdSet g.edges
        if nodeIds.any (fun id => !(connectedIds.contains id)) then
          .ok Status.Disconnected
        else .ok Status.Valid

/-! ## Specification vocabulary -/

/-- The directed edge relation of a graph: some edge goes from `a` to `b`. -/
def EdgeRel (g : Graph) (a b : NodeId) : Prop :=
  ∃ e ∈ g.edges, e.source = a ∧ e.target = b

/-- The graph has a directed cycle (a self-loop counts as a cycle of length one). -/
def HasDirectedCycle (g : Graph) : Prop :=
  ∃ v, Relation.TransGen (EdgeRel g) v v

/-- The id `k` is the id of some node of the list. -/
def IsNodeId (nodes : List Node) (k : NodeId) : Prop :=
  ∃ n ∈ nodes, n.id = k

instance (nodes : List Node) (k : NodeId) : Decidable (IsNodeId nodes k) := by
  unfold IsNodeId; infer_instance

/-- Every edge has its source and its target among the node ids. -/
def EdgesInNodes (g : Graph) : Prop :=
  ∀ e ∈ g.edges, IsNodeId g.nodes e.source ∧ IsNodeId g.nodes e.target

instance (g : Graph) : Decidable (EdgesInNodes g) := by
  unfold EdgesInNodes; infer_instance

/-- No edge has its source equal to its target. -/
def NoSelfLoop (g : Graph) : Prop :=
  ∀ e ∈ g.edges, e.source ≠ e.target

instance (g : Graph) : Decidable (NoSelfLoop g) := by
  unfold NoSelfLoop; infer_instance

/-- The id `k` is the source or the target of at least one edge. -/
def Touched (g : Graph) (k : NodeId) : Prop :=
  ∃ e ∈ g.edges, e.source = k ∨ e.target = k

instance (g : Graph) (k : NodeId) : Decidable (Touched g k) := by
  unfold Touched; infer_instance

/-! ## Sessions of the editor -/

/-- A node with its selection flag cleared. -/
def Node.unselect (n : Node) : Node := { n with selected := false }

/-- An edge with its selection flag cleared. -/
def Edge.unselect (e : Edge) : Edge := { e with selected := false }

/-- A selection change by the view layer (`onNodesChange`, `onEdgesChange`): the same
nodes and edges in the same order, with any `selected` flags. -/
def SelectionChange (g g1 : Graph) : Prop :=
  g1.nodes.map Node.unselect = g.nodes.map Node.unselect ∧
  g1.edges.map Edge.unselect = g.edges.map Edge.unselect

instance (g g1 : Graph) : Decidable (SelectionChange g g1) := by
  unfold SelectionChange; infer_instance

/-- One gesture of the user: create a node, connect, change the selection, delete. -/
inductive Step : Graph → Graph → Prop where
  | addNode (g : Graph) (label : Option String) (now : Nat) (pos : Position) :
      Step g (addNode g label now pos)
  | connect (g : Graph) (source target : NodeId) (eid : String) :
      Step g (onConnect g source target eid)
  | select (g g1 : Graph) (h : SelectionChange g g1) : Step g g1
  | delete (g : Graph) : Step g (handleDelete g)

/-- The states a session can reach from the empty graph. -/
def Reachable (g : Graph) : Prop := Relation.ReflTransGen Step Graph.empty g

/-- The selection at the time of a delete spares no edge of a node it removes: every
edge incident to a selected node is itself selected. -/
def SelectionCoversIncident (g : Graph) : Prop :=
  ∀ e ∈ g.edges, e.selected = false →
    ∀ n ∈ g.nodes, n.selected = true → n.id ≠ e.source ∧ n.id ≠ e.target

instance (g : Graph) : Decidable (SelectionCoversIncident g) := by
  unfold SelectionCoversIncident; infer_instance

/-- One gesture of the user, where a delete is only made under a selection that
covers the incident edges of the selected nodes. -/
inductive GuardedStep : Graph → Graph → Prop where
  | addNode (g : Graph) (label : Option String) (now : Nat) (pos : Position) :
      GuardedStep g (addNode g label now pos)
  | connect (g : Graph) (source target : NodeId) (eid : String) :
      GuardedStep g (onConnect g source target eid)
  | select (g g1 : Graph) (h : SelectionChange g g1) : GuardedStep g g1
  | delete (g : Graph) (h : SelectionCoversIncident g) : GuardedStep g (handleDelete g)

/-- The states reachable from the empty graph by guarded gestures. -/
def GuardedReachable (g : Graph) : Prop := Relation.ReflTransGen GuardedStep Graph.empty g

/-! ## Invariants of the depth-first search -/

/-- The successor relation of an adjacency object. -/
def Succ (adj : Adj) (a b : NodeId) : Prop :=
  ∃ l, adj a = some l ∧ b ∈ l

/-- A finished node: visited and no longer on the recursion stack. -/
def Black (m : Marks) (x : NodeId) : Prop :=
  m.visited x = true ∧ m.recStack x = false

/-- Some out-neighbour has no entry in the adjacency object. -/
def Dangling (adj : Adj) : Prop :=
  ∃ x y, Succ adj x y ∧ adj y = none

/-- The invariant of the marker objects between calls of `hasCycle`. -/
structure Inv (adj : Adj) (m : Marks) : Prop where
  sub : ∀ x, m.recStack x = true → m.visited x = true
  closed : ∀ x y, Black m x → Succ adj x y → Black m y
  acyc : ∀ x, Black m x → ¬ Relation.TransGen (Succ adj) x x

/-- The keys of `S` not yet visited: the termination measure of the search. -/
def unvisited (S : Finset NodeId) (m : Marks) : Finset NodeId :=
  S.filter (fun x => m.visited x = false)

/-- What a call `hasCycle(n)` started in `m` guarantees about its result. -/
def CallPost (adj : Adj) (n : NodeId) (m : Marks) : Except Fault (Bool × Marks) → Prop
  | .ok (false, m1) =>
      (∀ x, m1.recStack x = m.recStack x) ∧ (∀ x, m.visited x = true → m1.visited x = true) ∧
      m1.visited n = true ∧ Inv adj m1
  | .ok (true, _) => ∃ c, Relation.TransGen (Succ adj) c c
  | .error .typeError => adj n = none ∨ Dangling adj
  | .error .outOfFuel => False

/-- What the neighbour loop over `ns` started in `m` guarantees about its result. -/
def LoopPost (adj : Adj) (ns : List NodeId) (m : Marks) : Except Fault (Bool × Marks) → Prop
  | .ok (false, m1) =>
      (∀ x, m1.recStack x = m.recStack x) ∧ (∀ x, m.visited x = true → m1.visited x = true) ∧
      (∀ y ∈ ns, Black m1 y) ∧ Inv adj m1
  | .ok (true, _) => ∃ c, Relation.TransGen (Succ adj) c c
  | .error .typeError => Dangling adj
  | .error .outOfFuel => False

/-- What the loop over the nodes `ns` of `validateDAG` guarantees about its result. -/
def OuterPost (adj : Adj) (ns : List Node) : Except Fault Bool → Prop
  | .ok false => ∀ n ∈ ns, ¬ Relation.TransGen (Succ adj) n.id n.id
  | .ok true => ∃ c, Relation.TransGen (Succ adj) c c
  | .error .typeError => (∃ n ∈ ns, adj n.id = none) ∨ Dangling adj
  | .error .outOfFuel => False

/-- The out-neighbours the edge list gives the key `k`, in edge order. -/
def targetsOf (es : List Edge) (k : NodeId) : List NodeId :=
  (es.filter (fun e => decide (e.source = k))).map (fun e => e.target)

/-! ## Example graphs -/

/-- A node with the given id and default fields. -/
def mkNode (i : NodeId) : Node :=
  { id := i, label := "n", position := ⟨0, 0⟩, selected := false }

/-- An edge with the given endpoints and default fields. -/
def mkEdge (s t : NodeId) : Edge :=
  { id := "e", source := s, target := t, markerEnd := some .ArrowClosed, selected := false }

/-- Scenario C with two isolated nodes around it: the cycle is not reachable from
the first node. -/
def cycleWithIsolated : Graph :=
  ⟨[mkNode 1, mkNode 2, mkNode 3, mkNode 4], [mkEdge 2 3, mkEdge 3 2]⟩

/-- The diamond `1→2, 1→3, 2→4, 3→4`. -/
def diamond : Graph :=
  ⟨[mkNode 1, mkNode 2, mkNode 3, mkNode 4],
   [mkEdge 1 2, mkEdge 1 3, mkEdge 2 4, mkEdge 3 4]⟩

/-- Two components `1→2` and `3→4`. -/
def twoComponents : Graph :=
  ⟨[mkNode 1, mkNode 2, mkNode 3, mkNode 4], [mkEdge 1 2, mkEdge 3 4]⟩

/-- Scenario A: two nodes and no edge. -/
def twoIsolated : Graph := ⟨[mkNode 1, mkNode 2], []⟩

/-- One node with a self-loop edge and an edge between ids that are not nodes. -/
def oneNodeBadEdges : Graph := ⟨[mkNode 1], [mkEdge 1 1, mkEdge 7 8]⟩

/-- Two nodes and a self-loop edge on the first. -/
def selfLoopGraph : Graph := ⟨[mkNode 1, mkNode 2], [mkEdge 1 1]⟩

/-- A single node with id 1. -/
def singleNode : Graph := ⟨[mkNode 1], []⟩

/-- Nodes 1 and 2 with the edge `1→2`, node 2 selected. -/
def targetSelected : Graph :=
  ⟨[mkNode 1, { mkNode 2 with selected := true }], [mkEdge 1 2]⟩

/-- A session: three nodes created at clock readings 1, 2 and 3. -/
def sessionNodes : Graph :=
  addNode (addNode (addNode Graph.empty (some "n") 1 ⟨0, 0⟩) (some "n") 2 ⟨0, 0⟩)
    (some "n") 3 ⟨0, 0⟩

/-- The session continued: node 1 connected to node 2. -/
def sessionConnected : Graph := onConnect sessionNodes 1 2 "e"

/-- The session continued: node 2 selected. -/
def sessionSelected : Graph :=
  ⟨[mkNode 1, { mkNode 2 with selected := true }, mkNode 3], [mkEdge 1 2]⟩

/-- The session continued: the delete key pressed. -/
def sessionDeleted : Graph := handleDelete sessionSelected

/-- The session with three nodes after the attempt to connect node 1 to itself. -/
def sessionSelfConnect : Graph := onConnect sessionNodes 1 1 "e"

/-- Another continuation: node 2 connected to node 3. -/
def sessionChain : Graph := onConnect sessionConnected 2 3 "e"

/-- The chain with node 3 and the edge `2→3` selected. -/
def sessionChainSelected : Graph :=
  ⟨[mkNode 1, mkNode 2, { mkNode 3 with selected := true }],
   [mkEdge 1 2, { mkEdge 2 3 with selected := true }]⟩

/-- The chain after the delete key: nodes 1 and 2 with the edge `1→2`. -/
def sessionChainDeleted : Graph := handleDelete sessionChainSelected

/-! ## Sessions that only create and delete nodes -/

/-- No two nodes of the list carry the same id. -/
def UniqueIds (g : Graph) : Prop := (g.nodes.map (fun n => n.id)).Nodup

instance (g : Graph) : Decidable (UniqueIds g) := by
  unfold UniqueIds; infer_instance

/-- One gesture among: create a node (at any clock reading), change the selection,
delete. -/
inductive NodeStep : Graph → Graph → Prop where
  | addNode (g : Graph) (label : Option String) (now : Nat) (pos : Position) :
      NodeStep g (addNode g label now pos)
  | select (g g1 : Graph) (h : SelectionChange g g1) : NodeStep g g1
  | delete (g : Graph) : NodeStep g (handleDelete g)

/-- The states reachable from the empty graph by creating and deleting nodes. -/
def NodeReachable (g : Graph) : Prop := Relation.ReflTransGen NodeStep Graph.empty g

/-- One gesture among the same three, where a creation reads a clock value that is not
the id of a node currently in the list. -/
inductive FreshStep : Graph → Graph → Prop where
  | addNode (g : Graph) (label : Option String) (now : Nat) (pos : Position)
      (h : ¬ IsNodeId g.nodes now) : FreshStep g (addNode g label now pos)
  | select (g g1 : Graph) (h : SelectionChange g g1) : FreshStep g g1
  | delete (g : Graph) : FreshStep g (handleDelete g)

/-- The states reachable from the empty graph when every creation reads a fresh clock
value. -/
def FreshReachable (g : Graph) : Prop := Relation.ReflTransGen FreshStep Graph.empty g

/-- Two creations within the same millisecond (clock reading 5). -/
def sameMillisecond : Graph :=
  addNode (addNode Graph.empty (some "a") 5 ⟨0, 0⟩) (some "b") 5 ⟨1, 1⟩

/-- Two creations at the clock readings 5 and 6. -/
def nextMillisecond : Graph :=
  addNode (addNode Graph.empty (some "a") 5 ⟨0, 0⟩) (some "b") 6 ⟨1, 1⟩

/-- Nodes 2 and 3 with the edge `1→2`, whose source is no node id. -/
def danglingSource : Graph := ⟨[mkNode 2, mkNode 3], [mkEdge 1 2]⟩

/-- The diamond with other labels, positions, edge ids and selection flags. -/
def diamondRestyled : Graph :=
  ⟨[{ id := 1, label := "in", position := ⟨10, 20⟩, selected := true },
    { id := 2, label := "left", position := ⟨5, 7⟩, selected := false },
    { id := 3, label := "right", position := ⟨300, 2⟩, selected := true },
    { id := 4, label := "out", position := ⟨0, 0⟩, selected := false }],
   [{ id := "a", source := 1, target := 2, markerEnd := none, selected := true },
    { id := "b", source := 1, target := 3, markerEnd := some .Arrow, selected := false },
    { id := "c", source := 2, target := 4, markerEnd := none, selected := false },
    { id := "d", source := 3, target := 4, markerEnd := some .ArrowClosed, selected := true }]⟩

/-! ## The search with a log of its calls -/

/-- The neighbour loop of `hasCycle`, threading the list of node ids on which
`hasCycle` has been entered so far (latest first). -/
def forNeighborsLog
    (call : NodeId → Marks → List NodeId → Except Fault (Bool × Marks) × List NodeId) :
    List NodeId → Marks → List NodeId → Except Fault (Bool × Marks) × List NodeId
  | [], m, log => (.ok (false, m), log)
  | nb :: rest, m, log =>
    if m.visited nb = false then
      match call nb m log with
      | (.error f, log1) => (.error f, log1)
      | (.ok (true, m1), log1) => (.ok (true, m1), log1)
      | (.ok (false, m1), log1) =>
        if m1.recStack nb = true then (.ok (true, m1), log1)
        else forNeighborsLog call rest m1 log1
    else if m.recStack nb = true then (.ok (true, m), log)
    else forNeighborsLog call rest m log

/-- The closure `hasCycle(node)` that also records each entry in the log. -/
def hasCycleLog (adj : Adj) :
    Nat → NodeId → Marks → List NodeId → Except Fault (Bool × Marks) × List NodeId
  | 0, node, _, log => (.error .outOfFuel, node :: log)
  | fuel + 1, node, m, log =>
    let m1 := m.enter node
    match adj node with
    | none => (.error .typeError, node :: log)
    | some nbrs =>
      match forNeighborsLog (hasCycleLog adj fuel) nbrs m1 (node :: log) with
      | (.error f, log1) => (.error f, log1)
      | (.ok (true, m2), log1) => (.ok (true, m2), log1)
      | (.ok (false, m2), log1) => (.ok (false, m2.leave node), log1)

/-- The loop over the nodes of `validateDAG`, with the log of the entries of `hasCycle`. -/
def cycleLoopLog (adj : Adj) (fuel : Nat) :
    List Node → Marks → List NodeId → Except Fault Bool × List NodeId
  | [], _, log => (.ok false, log)
  | n :: ns, m, log =>
    if m.visited n.id = false then
      match hasCycleLog adj fuel n.id m log with
      | (.error f, log1) => (.error f, log1)
      | (.ok (true, _), log1) => (.ok true, log1)
      | (.ok (false, m1), log1) => cycleLoopLog adj fuel ns m1 log1
    else cycleLoopLog adj fuel ns m log

/-- The log holds no id twice, and every logged id is marked visited. -/
def Logged (m : Marks) (log : List NodeId) : Prop :=
  log.Nodup ∧ ∀ x ∈ log, m.visited x = true

/-- What a logged call guarantees: no id is logged twice, and on a normal return the
logged ids are all marked visited. -/
def LogPost : Except Fault (Bool × Marks) × List NodeId → Prop
  | (.ok (_, m1), log1) => Logged m1 log1
  | (.error _, log1) => log1.Nodup

/-- A cycle, a self-loop and parallel edges on three nodes. -/
def tangled : Graph :=
  ⟨[mkNode 1, mkNode 2, mkNode 3], [mkEdge 1 2, mkEdge 1 2, mkEdge 2 1, mkEdge 3 3]⟩

/-! ## Correctness of the depth-first search -/

theorem unvisited_card_mono (S : Finset NodeId) {m m1 : Marks}
    (h : ∀ x, m.visited x = true → m1.visited x = true) :
    (unvisited S m1).card ≤ (unvisited S m).card := by
  apply Finset.card_le_card
  intro x hx
  simp only [unvisited, Finset.mem_filter] at hx ⊢
  refine ⟨hx.1, ?_⟩
  by_contra hc
  have hv : m.visited x = true := by simpa using hc
  have := h x hv
  simp [this] at hx

theorem unvisited_card_mark (S : Finset NodeId) (m : Marks) (n : NodeId)
    (hn : n ∈ S) (hv : m.visited n = false) :
    (unvisited S (m.enter n)).card < (unvisited S m).card := by
  apply Finset.card_lt_card
  rw [Finset.ssubset_iff_of_subset]
  · refine ⟨n, ?_, ?_⟩
    · simp [unvisited, hn, hv]
    · simp [unvisited, assign, Marks.enter]
  · intro x hx
    simp only [unvisited, Finset.mem_filter, assign, Marks.enter] at hx ⊢
    refine ⟨hx.1, ?_⟩
    by_cases hxn : x = n
    · simp [hxn] at hx
    · simpa [hxn] using hx.2

theorem black_closed_reach {adj : Adj} {m : Marks} (hI : Inv adj m) {x y : NodeId}
    (hx : Black m x) (h : Relation.ReflTransGen (Succ adj) x y) : Black m y := by
  induction h with
  | refl => exact hx
  | tail _ hbc ih => exact hI.closed _ _ ih hbc

theorem forNeighbors_spec (adj : Adj) (S : Finset NodeId) (fuel : Nat)
    (call : NodeId → Marks → Except Fault (Bool × Marks))
    (hcall : ∀ n m, Inv adj m → m.visited n = false →
      (∀ r, m.recStack r = true → Relation.ReflTransGen (Succ adj) r n) →
      (unvisited S m).card < fuel → CallPost adj n m (call n m))
    (node : NodeId) :
    ∀ (ns : List NodeId) (m : Marks), Inv adj m →
      (∀ r, m.recStack r = true → Relation.ReflTransGen (Succ adj) r node) →
      (∀ y ∈ ns, Succ adj node y) → (unvisited S m).card < fuel →
      LoopPost adj ns m (forNeighbors call ns m) := by
  intro ns
  induction ns with
  | nil =>
    intro m hI _ _ _
    simp [forNeighbors, LoopPost, hI]
  | cons nb rest ih =>
    intro m hI hpath hsucc hcard
    have hnb : Succ adj node nb := hsucc nb (by simp)
    have hrest : ∀ y ∈ rest, Succ adj node y := fun y hy => hsucc y (by simp [hy])
    by_cases hv : m.visited nb = false
    · have hpost := hcall nb m hI hv
        (fun r hr => Relation.ReflTransGen.tail (hpath r hr) hnb) hcard
      have hrs : m.recStack nb = false := by
        cases hr : m.recStack nb with
        | false => rfl
        | true => have := hI.sub nb hr; simp [this] at hv
      rcases hres : call nb m with f | ⟨b, m1⟩
      · rw [hres] at hpost
        cases f with
        | typeError =>
          simp only [forNeighbors, hv, if_true, hres, LoopPost]
          rcases hpost with h | h
          · exact ⟨node, nb, hnb, h⟩
          · exact h
        | outOfFuel => exact absurd hpost (by simp [CallPost])
      · rw [hres] at hpost
        cases b with
        | true =>
          simp only [forNeighbors, hv, if_true, hres, LoopPost]
          exact hpost
        | false =>
          obtain ⟨hrec, hvis, hvn, hI1⟩ := hpost
          have hrs1 : m1.recStack nb = false := by rw [hrec]; exact hrs
          have hstep := ih m1 hI1 (fun r hr => hpath r (by rw [← hrec]; exact hr)) hrest
            (lt_of_le_of_lt (unvisited_card_mono S hvis) hcard)
          simp only [forNeighbors, hv, if_true, hres, hrs1]
          simp only [Bool.false_eq_true, if_false]
          rcases hloop : forNeighbors call rest m1 with f | ⟨b, m2⟩
          · rw [hloop] at hstep
            cases f with
            | typeError => exact hstep
            | outOfFuel => exact hstep
          · rw [hloop] at hstep
            cases b with
            | true => exact hstep
            | false =>
              obtain ⟨hrec2, hvis2, hblack, hI2⟩ := hstep
              refine ⟨fun x => by rw [hrec2, hrec], fun x hx => hvis2 x (hvis x hx), ?_, hI2⟩
              intro y hy
              rcases List.mem_cons.mp hy with rfl | hy
              · exact ⟨hvis2 _ hvn, by rw [hrec2]; exact hrs1⟩
              · exact hblack y hy
    · have hv1 : m.visited nb = true := by simpa using hv
      by_cases hr : m.recStack nb = true
      · simp only [forNeighbors, hv1, hr, LoopPost]
        simp only [Bool.true_eq_false, if_false, if_true]
        exact ⟨nb, Relation.TransGen.tail' (hpath nb hr) hnb⟩
      · have hr0 : m.recStack nb = false := by simpa using hr
        have hstep := ih m hI hpath hrest hcard
        simp only [forNeighbors, hv1, hr0]
        simp only [Bool.true_eq_false, Bool.false_eq_true, if_false]
        rcases hloop : forNeighbors call rest m with f | ⟨b, m2⟩
        · rw [hloop] at hstep
          cases f with
          | typeError => exact hstep
          | outOfFuel => exact hstep
        · rw [hloop] at hstep
          cases b with
          | true => exact hstep
          | false =>
            obtain ⟨hrec2, hvis2, hblack, hI2⟩ := hstep
            refine ⟨hrec2, hvis2, ?_, hI2⟩
            intro y hy
            rcases List.mem_cons.mp hy with rfl | hy
            · exact ⟨hvis2 _ hv1, by rw [hrec2]; exact hr0⟩
            · exact hblack y hy

theorem hasCycle_spec (adj : Adj) (S : Finset NodeId) (hS : ∀ x l, adj x = some l → x ∈ S) :
    ∀ (fuel : Nat) (n : NodeId) (m : Marks), Inv adj m → m.visited n = false →
      (∀ r, m.recStack r = true → Relation.ReflTransGen (Succ adj) r n) →
      (unvisited S m).card < fuel → CallPost adj n m (hasCycle adj fuel n m) := by
  intro fuel
  induction fuel with
  | zero => intro n m _ _ _ h; exact absurd h (Nat.not_lt_zero _)
  | succ fuel ih =>
    intro n m hI hv hpath hcard
    have hrn : m.recStack n = false := by
      cases hr : m.recStack n with
      | false => rfl
      | true => have := hI.sub n hr; simp [this] at hv
    rcases hadj : adj n with _ | nbrs
    · simp only [hasCycle, hadj, CallPost]
      exact Or.inl trivial
    · have hblack1 : ∀ x, Black (m.enter n) x → x ≠ n ∧ Black m x := by
        intro x hx
        have hxn : x ≠ n := by
          intro h; have := hx.2; simp [assign, Marks.enter, Marks.leave, h] at this
        refine ⟨hxn, ?_, ?_⟩
        · have := hx.1; simpa [assign, Marks.enter, Marks.leave, hxn] using this
        · have := hx.2; simpa [assign, Marks.enter, Marks.leave, hxn] using this
      have hI1 : Inv adj (m.enter n) := by
        refine ⟨?_, ?_, ?_⟩
        · intro x hx
          by_cases hxn : x = n
          · simp [assign, Marks.enter, Marks.leave, hxn]
          · have : m.recStack x = true := by simpa [assign, Marks.enter, Marks.leave, hxn] using hx
            simpa [assign, Marks.enter, Marks.leave, hxn] using hI.sub x this
        · intro x y hx hxy
          obtain ⟨_, hbx⟩ := hblack1 x hx
          have hby := hI.closed x y hbx hxy
          have hyn : y ≠ n := by
            intro h; have := hby.1; rw [h, hv] at this; exact absurd this (by simp)
          exact ⟨by simpa [assign, Marks.enter, Marks.leave, hyn] using hby.1, by simpa [assign, Marks.enter, Marks.leave, hyn] using hby.2⟩
        · intro x hx
          exact hI.acyc x (hblack1 x hx).2
      have hpath1 : ∀ r, (m.enter n).recStack r = true →
          Relation.ReflTransGen (Succ adj) r n := by
        intro r hr
        by_cases hrn' : r = n
        · rw [hrn']
        · exact hpath r (by simpa [assign, Marks.enter, Marks.leave, hrn'] using hr)
      have hsucc : ∀ y ∈ nbrs, Succ adj n y := fun y hy => ⟨nbrs, hadj, hy⟩
      have hcard1 : (unvisited S (m.enter n)).card < fuel :=
        lt_of_lt_of_le (unvisited_card_mark S m n (hS n nbrs hadj) hv)
          (Nat.lt_succ_iff.mp hcard)
      have hloop := forNeighbors_spec adj S fuel (hasCycle adj fuel) ih n nbrs _ hI1
        hpath1 hsucc hcard1
      simp only [hasCycle, hadj]
      rcases hres : forNeighbors (hasCycle adj fuel) nbrs (m.enter n)
        with f | ⟨b, m2⟩
      · rw [hres] at hloop
        cases f with
        | typeError => exact Or.inr hloop
        | outOfFuel => exact hloop
      · rw [hres] at hloop
        cases b with
        | true => exact hloop
        | false =>
          obtain ⟨hrec, hvis, hblack, hI2⟩ := hloop
          have hrec2n : m2.recStack n = true := by rw [hrec]; simp [assign, Marks.enter, Marks.leave]
          have hlift : ∀ y, Black m2 y →
              Black (m2.leave n) y := by
            intro y hy
            refine ⟨hy.1, ?_⟩
            by_cases hyn : y = n
            · simp [assign, Marks.enter, Marks.leave, hyn]
            · simpa [assign, Marks.enter, Marks.leave, hyn] using hy.2
          have hvn2 : m2.visited n = true := hvis n (by simp [assign, Marks.enter, Marks.leave])
          refine ⟨?_, ?_, hvn2, ?_, ?_, ?_⟩
          · intro x
            by_cases hxn : x = n
            · simp [assign, Marks.enter, Marks.leave, hxn, hrn]
            · have := hrec x
              simpa [assign, Marks.enter, Marks.leave, hxn] using this
          · intro x hx
            apply hvis
            by_cases hxn : x = n
            · simp [assign, Marks.enter, Marks.leave, hxn]
            · simpa [assign, Marks.enter, Marks.leave, hxn] using hx
          · intro x hx
            have hxn : x ≠ n := by
              intro h; simp [assign, Marks.enter, Marks.leave, h] at hx
            exact hI2.sub x (by simpa [assign, Marks.enter, Marks.leave, hxn] using hx)
          · intro x y hx hxy
            by_cases hxn : x = n
            · obtain ⟨l, hl, hyl⟩ := hxy
              rw [hxn, hadj] at hl
              cases hl
              exact hlift y (hblack y hyl)
            · have hbx : Black m2 x := ⟨hx.1, by simpa [assign, Marks.enter, Marks.leave, hxn] using hx.2⟩
              exact hlift y (hI2.closed x y hbx hxy)
          · intro x hx hcyc
            by_cases hxn : x = n
            · rw [hxn] at hcyc
              obtain ⟨y, hny, hyn⟩ := Relation.TransGen.head'_iff.mp hcyc
              obtain ⟨l, hl, hyl⟩ := hny
              rw [hadj] at hl
              cases hl
              have := (black_closed_reach hI2 (hblack y hyl) hyn).2
              rw [hrec2n] at this
              exact absurd this (by simp)
            · have hbx : Black m2 x := ⟨hx.1, by simpa [assign, Marks.enter, Marks.leave, hxn] using hx.2⟩
              exact hI2.acyc x hbx hcyc

theorem cycleLoop_spec (adj : Adj) (S : Finset NodeId) (hS : ∀ x l, adj x = some l → x ∈ S)
    (fuel : Nat) :
    ∀ (ns : List Node) (m : Marks), Inv adj m → (∀ x, m.recStack x = false) →
      (unvisited S m).card < fuel → OuterPost adj ns (cycleLoop adj fuel ns m) := by
  intro ns
  induction ns with
  | nil => intro m _ _ _; simp [cycleLoop, OuterPost]
  | cons n ns ih =>
    intro m hI hrs hcard
    by_cases hv : m.visited n.id = false
    · have hpost := hasCycle_spec adj S hS fuel n.id m hI hv
        (fun r hr => by rw [hrs r] at hr; exact absurd hr (by simp)) hcard
      simp only [cycleLoop, hv, if_true]
      rcases hres : hasCycle adj fuel n.id m with f | ⟨b, m1⟩
      · rw [hres] at hpost
        cases f with
        | typeError =>
          rcases hpost with h | h
          · exact Or.inl ⟨n, by simp, h⟩
          · exact Or.inr h
        | outOfFuel => exact hpost
      · rw [hres] at hpost
        cases b with
        | true => exact hpost
        | false =>
          obtain ⟨hrec, hvis, hvn, hI1⟩ := hpost
          have hrs1 : ∀ x, m1.recStack x = false := fun x => by rw [hrec]; exact hrs x
          have hstep := ih m1 hI1 hrs1 (lt_of_le_of_lt (unvisited_card_mono S hvis) hcard)
          show OuterPost adj (n :: ns) (cycleLoop adj fuel ns m1)
          rcases hloop : cycleLoop adj fuel ns m1 with f | b
          · rw [hloop] at hstep
            cases f with
            | typeError =>
              rcases hstep with ⟨k, hk, h⟩ | h
              · exact Or.inl ⟨k, by simp [hk], h⟩
              · exact Or.inr h
            | outOfFuel => exact hstep
          · rw [hloop] at hstep
            cases b with
            | true => exact hstep
            | false =>
              intro k hk
              rcases List.mem_cons.mp hk with rfl | hk
              · exact hI1.acyc _ ⟨hvn, hrs1 _⟩
              · exact hstep k hk
    · have hv1 : m.visited n.id = true := by simpa using hv
      have hstep := ih m hI hrs hcard
      simp only [cycleLoop, hv1]
      simp only [Bool.true_eq_false, if_false]
      rcases hloop : cycleLoop adj fuel ns m with f | b
      · rw [hloop] at hstep
        cases f with
        | typeError =>
          rcases hstep with ⟨k, hk, h⟩ | h
          · exact Or.inl ⟨k, by simp [hk], h⟩
          · exact Or.inr h
        | outOfFuel => exact hstep
      · rw [hloop] at hstep
        cases b with
        | true => exact hstep
        | false =>
          intro k hk
          rcases List.mem_cons.mp hk with rfl | hk
          · exact hI.acyc _ ⟨hv1, hrs _⟩
          · exact hstep k hk

/-! ## The adjacency object -/

theorem initAdj_apply : ∀ (ns : List Node) (adj : Adj) (k : NodeId),
    initAdj adj ns k = if IsNodeId ns k then some [] else adj k := by
  intro ns
  induction ns with
  | nil => intro adj k; simp [initAdj, IsNodeId]
  | cons n ns ih =>
    intro adj k
    rw [initAdj, ih]
    by_cases h1 : IsNodeId ns k
    · have h2 : IsNodeId (n :: ns) k := by
        obtain ⟨x, hx, hxk⟩ := h1
        exact ⟨x, by simp [hx], hxk⟩
      simp [h1, h2]
    · by_cases hk : k = n.id
      · have h2 : IsNodeId (n :: ns) k := ⟨n, by simp, hk.symm⟩
        rw [if_neg h1, if_pos h2]
        simp [Adj.set, hk]
      · have h2 : ¬ IsNodeId (n :: ns) k := by
          rintro ⟨x, hx, hxk⟩
          rcases List.mem_cons.mp hx with rfl | hx
          · exact hk hxk.symm
          · exact h1 ⟨x, hx, hxk⟩
        simp [h1, h2, Adj.set, hk]

theorem forEachEdge_spec : ∀ (es : List Edge) (adj : Adj), (∀ e ∈ es, adj e.source ≠ none) →
    ∃ adj1, forEachEdge adj es = .ok adj1 ∧
      ∀ k, adj1 k = (adj k).map (fun l => l ++ targetsOf es k) := by
  intro es
  induction es with
  | nil =>
    intro adj _
    refine ⟨adj, rfl, fun k => ?_⟩
    cases adj k <;> simp [targetsOf]
  | cons e es ih =>
    intro adj hsrc
    have he := hsrc e (by simp)
    obtain ⟨l, hl⟩ := Option.ne_none_iff_exists'.mp he
    have hsrc1 : ∀ e1 ∈ es, (adj.set e.source (l ++ [e.target])) e1.source ≠ none := by
      intro e1 he1
      by_cases h : e1.source = e.source
      · simp [Adj.set, h]
      · simpa [Adj.set, h] using hsrc e1 (by simp [he1])
    obtain ⟨adj1, hrun, hadj1⟩ := ih _ hsrc1
    refine ⟨adj1, ?_, fun k => ?_⟩
    · simp only [forEachEdge, edgeCallback, hl]
      by_cases hloop : e.source = e.target
      · simp only [hloop, if_true]
        rw [hloop] at hrun
        exact hrun
      · simp only [hloop, if_false]
        exact hrun
    · rw [hadj1]
      by_cases hk : k = e.source
      · subst hk
        simp [Adj.set, hl, targetsOf]
      · have hk1 : ¬ e.source = k := fun h => hk h.symm
        simp [Adj.set, hk, hk1, targetsOf]

theorem mem_targetsOf (es : List Edge) (a b : NodeId) :
    b ∈ targetsOf es a ↔ ∃ e ∈ es, e.source = a ∧ e.target = b := by
  simp only [targetsOf, List.mem_map, List.mem_filter, decide_eq_true_eq]
  constructor
  · rintro ⟨e, ⟨he, hs⟩, ht⟩
    exact ⟨e, he, hs, ht⟩
  · rintro ⟨e, he, hs, ht⟩
    exact ⟨e, ⟨he, hs⟩, ht⟩

theorem buildAdj_spec (g : Graph) (h : ∀ e ∈ g.edges, IsNodeId g.nodes e.source) :
    ∃ adj, forEachEdge (initAdj (fun _ => none) g.nodes) g.edges = .ok adj ∧
      ∀ k, adj k = if IsNodeId g.nodes k then some (targetsOf g.edges k) else none := by
  have hsrc : ∀ e ∈ g.edges, initAdj (fun _ => none) g.nodes e.source ≠ none := by
    intro e he
    rw [initAdj_apply, if_pos (h e he)]
    simp
  obtain ⟨adj, hrun, hadj⟩ := forEachEdge_spec g.edges _ hsrc
  refine ⟨adj, hrun, fun k => ?_⟩
  rw [hadj, initAdj_apply]
  by_cases hk : IsNodeId g.nodes k
  · simp [hk]
  · simp [hk]

theorem succ_iff_edgeRel (g : Graph) (adj : Adj)
    (hadj : ∀ k, adj k = if IsNodeId g.nodes k then some (targetsOf g.edges k) else none)
    (h : ∀ e ∈ g.edges, IsNodeId g.nodes e.source) (a b : NodeId) :
    Succ adj a b ↔ EdgeRel g a b := by
  constructor
  · rintro ⟨l, hl, hb⟩
    rw [hadj] at hl
    by_cases ha : IsNodeId g.nodes a
    · rw [if_pos ha] at hl
      cases hl
      exact (mem_targetsOf _ _ _).mp hb
    · rw [if_neg ha] at hl
      cases hl
  · rintro ⟨e, he, hs, ht⟩
    have ha : IsNodeId g.nodes a := hs ▸ h e he
    exact ⟨targetsOf g.edges a, by rw [hadj, if_pos ha],
      (mem_targetsOf _ _ _).mpr ⟨e, he, hs, ht⟩⟩

theorem inv_initMarks (adj : Adj) : Inv adj initMarks := by
  refine ⟨?_, ?_, ?_⟩
  · intro x hx; simp [initMarks] at hx
  · intro x y hx; have := hx.1; simp [initMarks] at this
  · intro x hx; have := hx.1; simp [initMarks] at this

theorem unvisited_card_le (g : Graph) (m : Marks) :
    (unvisited (g.nodes.map (fun n => n.id)).toFinset m).card < dfsFuel g := by
  have h1 : (unvisited (g.nodes.map (fun n => n.id)).toFinset m).card
      ≤ (g.nodes.map (fun n => n.id)).toFinset.card := by
    unfold unvisited
    exact Finset.card_filter_le _ _
  have h2 : (g.nodes.map (fun n => n.id)).toFinset.card ≤ (g.nodes.map (fun n => n.id)).length :=
    List.toFinset_card_le _
  simp only [List.length_map] at h2
  unfold dfsFuel
  omega

theorem cycleLoop_graph (g : Graph) (h : EdgesInNodes g) (adj : Adj)
    (hadj : ∀ k, adj k = if IsNodeId g.nodes k then some (targetsOf g.edges k) else none) :
    (HasDirectedCycle g → cycleLoop adj (dfsFuel g) g.nodes initMarks = .ok true) ∧
    (¬ HasDirectedCycle g → cycleLoop adj (dfsFuel g) g.nodes initMarks = .ok false) := by
  have hsrc : ∀ e ∈ g.edges, IsNodeId g.nodes e.source := fun e he => (h e he).1
  have hrel : Succ adj = EdgeRel g :=
    funext fun a => funext fun b => propext (succ_iff_edgeRel g adj hadj hsrc a b)
  have hS : ∀ x l, adj x = some l → x ∈ (g.nodes.map (fun n => n.id)).toFinset := by
    intro x l hx
    rw [hadj] at hx
    by_cases hk : IsNodeId g.nodes x
    · obtain ⟨n, hn, hnx⟩ := hk
      simp only [List.mem_toFinset, List.mem_map]
      exact ⟨n, hn, hnx⟩
    · rw [if_neg hk] at hx
      cases hx
  have hpost := cycleLoop_spec adj _ hS (dfsFuel g) g.nodes initMarks (inv_initMarks adj)
    (fun _ => rfl) (unvisited_card_le g initMarks)
  have hnode : ∀ k, IsNodeId g.nodes k → adj k ≠ none := by
    intro k hk
    rw [hadj, if_pos hk]
    simp
  rcases hres : cycleLoop adj (dfsFuel g) g.nodes initMarks with f | b
  · rw [hres] at hpost
    cases f with
    | typeError =>
      exfalso
      rcases hpost with ⟨n, hn, hnone⟩ | ⟨x, y, hxy, hnone⟩
      · exact hnode n.id ⟨n, hn, rfl⟩ hnone
      · rw [hrel] at hxy
        obtain ⟨e, he, _, ht⟩ := hxy
        exact hnode y (ht ▸ (h e he).2) hnone
    | outOfFuel => exact absurd hpost (by simp [OuterPost])
  · rw [hres] at hpost
    cases b with
    | true =>
      have hc : HasDirectedCycle g := by
        obtain ⟨c, hc⟩ := hpost
        rw [hrel] at hc
        exact ⟨c, hc⟩
      exact ⟨fun _ => rfl, fun hn => absurd hc hn⟩
    | false =>
      have hc : ¬ HasDirectedCycle g := by
        rintro ⟨v, hv⟩
        obtain ⟨b, ⟨e, he, hs, _⟩, _⟩ := Relation.TransGen.head'_iff.mp hv
        obtain ⟨n, hn, hnv⟩ := (h e he).1
        have := hpost n hn
        rw [hrel, hnv, hs] at this
        exact this hv
      exact ⟨fun hy => absurd hy hc, fun _ => rfl⟩

/-! ## The connectivity check -/

theorem mem_foldl_setAdd : ∀ (l s : List NodeId) (k : NodeId),
    k ∈ l.foldl setAdd s ↔ k ∈ s ∨ k ∈ l := by
  intro l
  induction l with
  | nil => intro s k; simp
  | cons a l ih =>
    intro s k
    rw [List.foldl_cons, ih]
    by_cases ha : a ∈ s
    · simp only [setAdd, ha, if_true, List.mem_cons]
      constructor
      · rintro (h | h)
        · exact Or.inl h
        · exact Or.inr (Or.inr h)
      · rintro (h | h | h)
        · exact Or.inl h
        · exact Or.inl (h ▸ ha)
        · exact Or.inr h
    · simp only [setAdd, ha, if_false, List.mem_append, List.mem_singleton, List.mem_cons]
      tauto

theorem mem_nodeIdSet (nodes : List Node) (k : NodeId) :
    k ∈ nodeIdSet nodes ↔ IsNodeId nodes k := by
  unfold nodeIdSet IsNodeId
  rw [mem_foldl_setAdd]
  simp

theorem mem_connectedIdSet_aux : ∀ (es : List Edge) (s : List NodeId) (k : NodeId),
    k ∈ es.foldl (fun s e => setAdd (setAdd s e.source) e.target) s ↔
      k ∈ s ∨ ∃ e ∈ es, e.source = k ∨ e.target = k := by
  intro es
  induction es with
  | nil => intro s k; simp
  | cons e es ih =>
    intro s k
    rw [List.foldl_cons, ih]
    have h1 : ∀ (t : List NodeId) (a : NodeId), k ∈ setAdd t a ↔ k ∈ t ∨ k = a := by
      intro t a
      by_cases ha : a ∈ t
      · simp only [setAdd, ha, if_true]
        constructor
        · exact Or.inl
        · rintro (h | h)
          · exact h
          · exact h ▸ ha
      · simp [setAdd, ha]
    rw [h1, h1]
    simp only [List.mem_cons, exists_eq_or_imp]
    constructor
    · rintro ((( h | h) | h) | h)
      · exact Or.inl h
      · exact Or.inr (Or.inl (Or.inl h.symm))
      · exact Or.inr (Or.inl (Or.inr h.symm))
      · exact Or.inr (Or.inr h)
    · rintro (h | (h | h) | h)
      · exact Or.inl (Or.inl (Or.inl h))
      · exact Or.inl (Or.inl (Or.inr h.symm))
      · exact Or.inl (Or.inr h.symm)
      · exact Or.inr h

theorem mem_connectedIdSet (g : Graph) (k : NodeId) :
    k ∈ connectedIdSet g.edges ↔ Touched g k := by
  unfold connectedIdSet Touched
  rw [mem_connectedIdSet_aux]
  simp

theorem isolated_check (g : Graph) :
    (nodeIdSet g.nodes).any (fun id => !((connectedIdSet g.edges).contains id)) = true ↔
      ∃ k, IsNodeId g.nodes k ∧ ¬ Touched g k := by
  simp only [List.any_eq_true, Bool.not_eq_true', List.contains_eq_any_beq, List.any_eq_false,
    beq_iff_eq, mem_nodeIdSet]
  constructor
  · rintro ⟨k, hk, hno⟩
    refine ⟨k, hk, fun ht => ?_⟩
    exact hno k ((mem_connectedIdSet g k).mpr ht) rfl
  · rintro ⟨k, hk, hno⟩
    refine ⟨k, hk, fun x hx hxk => ?_⟩
    exact hno ((mem_connectedIdSet g k).mp (by rw [hxk]; exact hx))

/-! ## The recursion bound is never reached -/

theorem forEachEdge_cons_some (adj : Adj) (e : Edge) (es : List Edge) (l : List NodeId)
    (hl : adj e.source = some l) :
    forEachEdge adj (e :: es) = forEachEdge (adj.set e.source (l ++ [e.target])) es := by
  have hcb : ∃ r, edgeCallback adj e = .ok (adj.set e.source (l ++ [e.target]), r) := by
    unfold edgeCallback
    rw [hl]
    by_cases hloop : e.source = e.target
    · exact ⟨some Status.SelfLoop, by simp only [if_pos hloop]⟩
    · exact ⟨none, by simp only [if_neg hloop]⟩
  obtain ⟨r, hr⟩ := hcb
  simp only [forEachEdge, hr]

theorem forEachEdge_cons_none (adj : Adj) (e : Edge) (es : List Edge)
    (hl : adj e.source = none) :
    forEachEdge adj (e :: es) = .error Fault.typeError := by
  simp only [forEachEdge, edgeCallback, hl]

theorem forEachEdge_keys : ∀ (es : List Edge) (adj adj1 : Adj),
    forEachEdge adj es = .ok adj1 → ∀ k, adj1 k = none ↔ adj k = none := by
  intro es
  induction es with
  | nil =>
    intro adj adj1 h k
    simp only [forEachEdge, Except.ok.injEq] at h
    rw [h]
  | cons e es ih =>
    intro adj adj1 h k
    rcases hl : adj e.source with _ | l
    · rw [forEachEdge_cons_none adj e es hl] at h
      cases h
    · rw [forEachEdge_cons_some adj e es l hl] at h
      rw [ih _ _ h k]
      by_cases hk : k = e.source
      · simp [Adj.set, hk, hl]
      · simp [Adj.set, hk]

theorem forEachEdge_ne_outOfFuel : ∀ (es : List Edge) (adj : Adj),
    forEachEdge adj es ≠ .error Fault.outOfFuel := by
  intro es
  induction es with
  | nil => intro adj; simp [forEachEdge]
  | cons e es ih =>
    intro adj
    rcases hl : adj e.source with _ | l
    · rw [forEachEdge_cons_none adj e es hl]
      simp
    · rw [forEachEdge_cons_some adj e es l hl]
      exact ih _

theorem validateDAG_ne_outOfFuel (g : Graph) : validateDAG g ≠ .error Fault.outOfFuel := by
  unfold validateDAG
  by_cases hlen : g.nodes.length < 2
  · simp [hlen]
  · simp only [hlen, if_false]
    rcases hrun : forEachEdge (initAdj (fun _ => none) g.nodes) g.edges with f | adj
    · intro hc
      simp only [Except.error.injEq] at hc
      exact forEachEdge_ne_outOfFuel _ _ (hc ▸ hrun)
    · have hS : ∀ x l, adj x = some l → x ∈ (g.nodes.map (fun n => n.id)).toFinset := by
        intro x l hx
        have h1 : adj x ≠ none := by rw [hx]; simp
        have h2 : initAdj (fun _ => none) g.nodes x ≠ none :=
          fun hc => h1 ((forEachEdge_keys _ _ _ hrun x).mpr hc)
        rw [initAdj_apply] at h2
        by_cases hk : IsNodeId g.nodes x
        · obtain ⟨n, hn, hnx⟩ := hk
          simp only [List.mem_toFinset, List.mem_map]
          exact ⟨n, hn, hnx⟩
        · rw [if_neg hk] at h2
          exact absurd rfl h2
      have hpost := cycleLoop_spec adj _ hS (dfsFuel g) g.nodes initMarks (inv_initMarks adj)
        (fun _ => rfl) (unvisited_card_le g initMarks)
      rcases hres : cycleLoop adj (dfsFuel g) g.nodes initMarks with f | b
      · rw [hres] at hpost
        cases f with
        | typeError => simp only [hres]; simp
        | outOfFuel => exact absurd hpost (by simp [OuterPost])
      · cases b with
        | true => simp only [hres]; simp
        | false =>
          simp only [hres]
          split <;> simp

/-! ## The validator on graphs without dangling edges -/

theorem validateDAG_inNodes (g : Graph) (hlen : 2 ≤ g.nodes.length) (h : EdgesInNodes g) :
    (HasDirectedCycle g → validateDAG g = .ok Status.CycleDetected) ∧
    (¬ HasDirectedCycle g → (∃ k, IsNodeId g.nodes k ∧ ¬ Touched g k) →
      validateDAG g = .ok Status.Disconnected) ∧
    (¬ HasDirectedCycle g → (∀ k, IsNodeId g.nodes k → Touched g k) →
      validateDAG g = .ok Status.Valid) := by
  obtain ⟨adj, hrun, hadj⟩ := buildAdj_spec g (fun e he => (h e he).1)
  obtain ⟨hyes, hno⟩ := cycleLoop_graph g h adj hadj
  have hlen1 : ¬ g.nodes.length < 2 := by omega
  refine ⟨?_, ?_, ?_⟩
  · intro hc
    simp only [validateDAG, hlen1, if_false, hrun, hyes hc]
  · intro hc hiso
    simp only [validateDAG, hlen1, if_false, hrun, hno hc]
    rw [if_pos ((isolated_check g).mpr hiso)]
  · intro hc hall
    simp only [validateDAG, hlen1, if_false, hrun, hno hc]
    rw [if_neg]
    rw [isolated_check]
    rintro ⟨k, hk, hnt⟩
    exact hnt (hall k hk)

theorem acyclic_of_increasing (g : Graph) (h : ∀ e ∈ g.edges, e.source < e.target) :
    ¬ HasDirectedCycle g := by
  have hlt : ∀ a b, Relation.TransGen (EdgeRel g) a b → a < b := by
    intro a b hab
    induction hab with
    | single hab =>
      obtain ⟨e, he, hs, ht⟩ := hab
      rw [← hs, ← ht]
      exact h e he
    | tail _ hbc ih =>
      obtain ⟨e, he, hs, ht⟩ := hbc
      have := h e he
      rw [hs, ht] at this
      exact lt_trans ih this
  rintro ⟨v, hv⟩
  exact lt_irrefl v (hlt v v hv)

/-! ## Claims -/

/-- C1: a graph with at least two nodes, no dangling edge, no self-loop edge and a
directed cycle anywhere is reported as `'Invalid: Cycle detected'`, whether or not
other nodes are isolated. -/
theorem validateDAG_cycle_detected (g : Graph) (hlen : 2 ≤ g.nodes.length)
    (hin : EdgesInNodes g) (_hloop : NoSelfLoop g) (hcyc : HasDirectedCycle g) :
    validateDAG g = .ok Status.CycleDetected :=
  (validateDAG_inNodes g hlen hin).1 hcyc

theorem validateDAG_cycle_detected_witness :
    2 ≤ cycleWithIsolated.nodes.length ∧ EdgesInNodes cycleWithIsolated ∧
    NoSelfLoop cycleWithIsolated ∧ HasDirectedCycle cycleWithIsolated ∧
    ¬ Touched cycleWithIsolated 1 ∧
    validateDAG cycleWithIsolated = .ok Status.CycleDetected := by
  have hcyc : HasDirectedCycle cycleWithIsolated :=
    ⟨2, Relation.TransGen.tail
      (Relation.TransGen.single ⟨mkEdge 2 3, by simp [cycleWithIsolated], rfl, rfl⟩)
      ⟨mkEdge 3 2, by simp [cycleWithIsolated], rfl, rfl⟩⟩
  exact ⟨by decide, by decide, by decide, hcyc, by decide,
    validateDAG_cycle_detected cycleWithIsolated (by decide) (by decide) (by decide) hcyc⟩

/-- C2: a graph with at least two nodes, no dangling edge, no directed cycle and every
node id incident to some edge is reported as `'Valid DAG'`; the diamond and a graph of
two components are instances. -/
theorem validateDAG_valid (g : Graph) (hlen : 2 ≤ g.nodes.length)
    (hin : EdgesInNodes g) (hac : ¬ HasDirectedCycle g)
    (hall : ∀ n ∈ g.nodes, Touched g n.id) :
    validateDAG g = .ok Status.Valid :=
  (validateDAG_inNodes g hlen hin).2.2 hac (by
    rintro k ⟨n, hn, rfl⟩
    exact hall n hn)

theorem validateDAG_valid_witness :
    (2 ≤ diamond.nodes.length ∧ EdgesInNodes diamond ∧ ¬ HasDirectedCycle diamond ∧
      (∀ n ∈ diamond.nodes, Touched diamond n.id) ∧
      validateDAG diamond = .ok Status.Valid) ∧
    (2 ≤ twoComponents.nodes.length ∧ EdgesInNodes twoComponents ∧
      ¬ HasDirectedCycle twoComponents ∧
      (∀ n ∈ twoComponents.nodes, Touched twoComponents n.id) ∧
      validateDAG twoComponents = .ok Status.Valid) := by
  have h1 : ¬ HasDirectedCycle diamond := acyclic_of_increasing diamond (by decide)
  have h2 : ¬ HasDirectedCycle twoComponents := acyclic_of_increasing twoComponents (by decide)
  exact ⟨⟨by decide, by decide, h1, by decide,
      validateDAG_valid diamond (by decide) (by decide) h1 (by decide)⟩,
    ⟨by decide, by decide, h2, by decide,
      validateDAG_valid twoComponents (by decide) (by decide) h2 (by decide)⟩⟩

/-- C3: a graph with at least two nodes, no dangling edge, no directed cycle and some
node whose id is neither source nor target of any edge is reported as
`'Invalid: All nodes must be connected'`. -/
theorem validateDAG_disconnected (g : Graph) (hlen : 2 ≤ g.nodes.length)
    (hin : EdgesInNodes g) (hac : ¬ HasDirectedCycle g)
    (hiso : ∃ n ∈ g.nodes, ¬ Touched g n.id) :
    validateDAG g = .ok Status.Disconnected :=
  (validateDAG_inNodes g hlen hin).2.1 hac (by
    obtain ⟨n, hn, hnt⟩ := hiso
    exact ⟨n.id, ⟨n, hn, rfl⟩, hnt⟩)

theorem validateDAG_disconnected_witness :
    2 ≤ twoIsolated.nodes.length ∧ EdgesInNodes twoIsolated ∧
    ¬ HasDirectedCycle twoIsolated ∧ (∃ n ∈ twoIsolated.nodes, ¬ Touched twoIsolated n.id) ∧
    validateDAG twoIsolated = .ok Status.Disconnected := by
  have h1 : ¬ HasDirectedCycle twoIsolated := acyclic_of_increasing twoIsolated (by decide)
  exact ⟨by decide, by decide, h1, by decide,
    validateDAG_disconnected twoIsolated (by decide) (by decide) h1 (by decide)⟩

/-- C4: with fewer than two nodes the result is `'Invalid: Need at least 2 nodes'`
whatever the edges are; the adjacency object is not built, so edges with unknown
endpoints raise no `TypeError`. -/
theorem validateDAG_tooFewNodes (nodes : List Node) (edges : List Edge)
    (hlen : nodes.length < 2) :
    validateDAG ⟨nodes, edges⟩ = .ok Status.TooFewNodes := by
  simp [validateDAG, hlen]

theorem validateDAG_tooFewNodes_witness :
    oneNodeBadEdges.nodes.length < 2 ∧ ¬ EdgesInNodes oneNodeBadEdges ∧
    ¬ NoSelfLoop oneNodeBadEdges ∧
    validateDAG ⟨oneNodeBadEdges.nodes, oneNodeBadEdges.edges⟩ = .ok Status.TooFewNodes :=
  ⟨by decide, by decide, by decide,
    validateDAG_tooFewNodes oneNodeBadEdges.nodes oneNodeBadEdges.edges (by decide)⟩

/-- C5 (counterexample): called on two nodes with a self-loop edge on the first, a
graph within the claim's domain, `validateDAG` discards the value returned inside
the `forEach` callback and the result is `'Invalid: Cycle detected'`, not
`'Invalid: Self-loop'`. -/
theorem validateDAG_selfLoop_reports_cycle :
    2 ≤ selfLoopGraph.nodes.length ∧
    (∃ e ∈ selfLoopGraph.edges, e.source = e.target ∧ IsNodeId selfLoopGraph.nodes e.source) ∧
    validateDAG selfLoopGraph = .ok Status.CycleDetected ∧
    validateDAG selfLoopGraph ≠ .ok Status.SelfLoop := by
  decide

/-! ## Connection validator and graph store -/

theorem findNode_truthy (nodes : List Node) (k : NodeId) :
    (findNode nodes k).truthy = true ↔ IsNodeId nodes k := by
  unfold findNode IsNodeId
  cases h : nodes.find? (fun n => decide (n.id = k)) with
  | none =>
    simp only [JsVal.truthy, Bool.false_eq_true, false_iff]
    rintro ⟨n, hn, hk⟩
    have := List.find?_eq_none.mp h n hn
    simp [hk] at this
  | some n =>
    simp only [JsVal.truthy, true_iff]
    have h1 := List.find?_some h
    exact ⟨n, List.mem_of_find?_eq_some h, by simpa using h1⟩

theorem isValidConnection_truthy (nodes : List Node) (s t : NodeId) :
    (isValidConnection nodes s t).truthy = true ↔
      s ≠ t ∧ IsNodeId nodes s ∧ IsNodeId nodes t := by
  unfold isValidConnection
  by_cases hst : s = t
  · simp [hst, JsVal.truthy]
  · simp only [hst, if_false, ne_eq, not_false_eq_true, true_and, JsVal.and]
    by_cases hs : (findNode nodes s).truthy = true
    · rw [if_pos hs, findNode_truthy]
      exact ⟨fun h => ⟨(findNode_truthy nodes s).mp hs, h⟩, fun h => h.2⟩
    · rw [if_neg hs]
      constructor
      · intro h; exact absurd h hs
      · intro h; exact absurd ((findNode_truthy nodes s).mpr h.1) hs

/-- C6: `isValidConnection` returns a truthy value exactly when source and target
differ and each is the id of some node of the current list; in every other case
(equal endpoints, or an endpoint that is no node id) the value is falsy. -/
theorem isValidConnection_accepts_iff (nodes : List Node) (source target : NodeId) :
    ((isValidConnection nodes source target).truthy = true ↔
      source ≠ target ∧ IsNodeId nodes source ∧ IsNodeId nodes target) ∧
    ((isValidConnection nodes source target).truthy = false ↔
      source = target ∨ ¬ IsNodeId nodes source ∨ ¬ IsNodeId nodes target) := by
  have h := isValidConnection_truthy nodes source target
  refine ⟨h, ?_⟩
  rw [← Bool.not_eq_true, h]
  tauto

/-- C7: a connection that `isValidConnection` rejects (equal endpoints, or an endpoint
that is no node id) leaves `onConnect` without effect: nodes and edges are unchanged. -/
theorem onConnect_rejected (g : Graph) (source target : NodeId) (eid : String)
    (h : source = target ∨ ¬ IsNodeId g.nodes source ∨ ¬ IsNodeId g.nodes target) :
    (isValidConnection g.nodes source target).truthy = false ∧
    onConnect g source target eid = g := by
  have hrej : (isValidConnection g.nodes source target).truthy = false := by
    rw [← Bool.not_eq_true, isValidConnection_truthy]
    tauto
  exact ⟨hrej, by simp [onConnect, hrej]⟩

theorem onConnect_rejected_witness :
    IsNodeId singleNode.nodes 1 ∧
    (isValidConnection singleNode.nodes 1 1).truthy = false ∧
    onConnect singleNode 1 1 "e" = singleNode :=
  ⟨by decide, onConnect_rejected singleNode 1 1 "e" (Or.inl rfl)⟩

/-- C8: `handleDelete` keeps exactly the unselected nodes and the unselected edges, in
their previous order and unmodified; an unselected edge stays whatever happens to
the nodes at its endpoints. -/
theorem handleDelete_spec (g : Graph) :
    (handleDelete g).nodes = g.nodes.filter (fun n => !n.selected) ∧
    (handleDelete g).edges = g.edges.filter (fun e => !e.selected) ∧
    List.Sublist (handleDelete g).nodes g.nodes ∧
    List.Sublist (handleDelete g).edges g.edges ∧
    (∀ n, n ∈ (handleDelete g).nodes ↔ n ∈ g.nodes ∧ n.selected = false) ∧
    (∀ e, e ∈ (handleDelete g).edges ↔ e ∈ g.edges ∧ e.selected = false) := by
  refine ⟨rfl, rfl, List.filter_sublist _, List.filter_sublist _, ?_, ?_⟩
  · intro n
    simp [handleDelete, List.mem_filter]
  · intro e
    simp [handleDelete, List.mem_filter]

theorem handleDelete_spec_witness :
    (handleDelete targetSelected).nodes = [mkNode 1] ∧
    (handleDelete targetSelected).edges = [mkEdge 1 2] ∧
    mkEdge 1 2 ∈ (handleDelete targetSelected).edges :=
  ⟨by rw [(handleDelete_spec targetSelected).1]; decide,
   by rw [(handleDelete_spec targetSelected).2.1]; decide,
   ((handleDelete_spec targetSelected).2.2.2.2.2 (mkEdge 1 2)).mpr (by decide)⟩

/-- C9: `addNode` does nothing for an absent or empty label; for a non-empty label it
keeps the edges and appends one node carrying that label to the node list. -/
theorem addNode_spec (g : Graph) (now : Nat) (pos : Position) :
    addNode g none now pos = g ∧ addNode g (some "") now pos = g ∧
    ∀ l : String, l ≠ "" →
      (addNode g (some l) now pos).edges = g.edges ∧
      (∃ n : Node, (addNode g (some l) now pos).nodes = g.nodes ++ [n] ∧ n.label = l) ∧
      (addNode g (some l) now pos).nodes.length = g.nodes.length + 1 := by
  refine ⟨rfl, by simp [addNode], ?_⟩
  intro l hl
  refine ⟨by simp [addNode, hl], ?_, by simp [addNode, hl]⟩
  exact ⟨{ id := now, label := l, position := pos, selected := false },
    by simp [addNode, hl], rfl⟩

theorem addNode_spec_witness :
    (addNode singleNode (some "b") 2 ⟨0, 0⟩).edges = singleNode.edges ∧
    (∃ n : Node, (addNode singleNode (some "b") 2 ⟨0, 0⟩).nodes = singleNode.nodes ++ [n] ∧
      n.label = "b") ∧
    (addNode singleNode (some "b") 2 ⟨0, 0⟩).nodes.length = singleNode.nodes.length + 1 :=
  (addNode_spec singleNode 2 ⟨0, 0⟩).2.2 "b" (by decide)

theorem isNodeId_iff_mem_map (nodes : List Node) (k : NodeId) :
    IsNodeId nodes k ↔ k ∈ nodes.map (fun n => n.id) := by
  simp [IsNodeId]

theorem edgesInNodes_addNode (g : Graph) (label : Option String) (now : Nat) (pos : Position)
    (h : EdgesInNodes g) : EdgesInNodes (addNode g label now pos) := by
  have hsub : ∀ k, IsNodeId g.nodes k → IsNodeId (addNode g label now pos).nodes k := by
    intro k hk
    unfold addNode
    cases label with
    | none => exact hk
    | some l =>
      by_cases hl : l = ""
      · simp only [hl, if_true]; exact hk
      · simp only [hl, if_false]
        obtain ⟨n, hn, hnk⟩ := hk
        exact ⟨n, by simp [hn], hnk⟩
  have hedges : (addNode g label now pos).edges = g.edges := by
    unfold addNode
    cases label with
    | none => rfl
    | some l => by_cases hl : l = "" <;> simp [hl]
  intro e he
  rw [hedges] at he
  exact ⟨hsub _ (h e he).1, hsub _ (h e he).2⟩

theorem edgesInNodes_onConnect (g : Graph) (s t : NodeId) (eid : String)
    (h : EdgesInNodes g) : EdgesInNodes (onConnect g s t eid) := by
  unfold onConnect
  by_cases hok : (isValidConnection g.nodes s t).truthy = true
  · rw [if_pos hok]
    obtain ⟨_, hs, ht⟩ := (isValidConnection_truthy g.nodes s t).mp hok
    intro e he
    simp only [addEdge, List.mem_append, List.mem_singleton] at he
    rcases he with he | rfl
    · exact h e he
    · exact ⟨hs, ht⟩
  · rw [if_neg hok]
    exact h

theorem edgesInNodes_select (g g1 : Graph) (hsel : SelectionChange g g1)
    (h : EdgesInNodes g) : EdgesInNodes g1 := by
  obtain ⟨hn, he⟩ := hsel
  have hids : g1.nodes.map (fun n => n.id) = g.nodes.map (fun n => n.id) := by
    have := congrArg (List.map (fun n : Node => n.id)) hn
    simpa [List.map_map, Function.comp_def, Node.unselect] using this
  have hnode : ∀ k, IsNodeId g.nodes k → IsNodeId g1.nodes k := by
    intro k hk
    rw [isNodeId_iff_mem_map] at hk ⊢
    rw [hids]
    exact hk
  intro e hmem
  have h1 : e.unselect ∈ g1.edges.map Edge.unselect := List.mem_map_of_mem _ hmem
  rw [he] at h1
  obtain ⟨e0, he0, heq⟩ := List.mem_map.mp h1
  have hs : e0.source = e.source := by
    have := congrArg Edge.source heq
    simpa [Edge.unselect] using this
  have ht : e0.target = e.target := by
    have := congrArg Edge.target heq
    simpa [Edge.unselect] using this
  rw [← hs, ← ht]
  exact ⟨hnode _ (h e0 he0).1, hnode _ (h e0 he0).2⟩

theorem edgesInNodes_handleDelete (g : Graph) (hsel : SelectionCoversIncident g)
    (h : EdgesInNodes g) : EdgesInNodes (handleDelete g) := by
  intro e he
  simp only [handleDelete, List.mem_filter, Bool.not_eq_true'] at he
  obtain ⟨hmem, hunsel⟩ := he
  have hkeep : ∀ k, (k = e.source ∨ k = e.target) → IsNodeId g.nodes k →
      IsNodeId (handleDelete g).nodes k := by
    rintro k hk ⟨n, hn, hnk⟩
    refine ⟨n, ?_, hnk⟩
    simp only [handleDelete, List.mem_filter, Bool.not_eq_true']
    refine ⟨hn, ?_⟩
    by_contra hc
    have hs : n.selected = true := by simpa using hc
    have := hsel e hmem hunsel n hn hs
    rcases hk with hk | hk
    · exact this.1 (hnk.trans hk)
    · exact this.2 (hnk.trans hk)
  exact ⟨hkeep _ (Or.inl rfl) (h e hmem).1, hkeep _ (Or.inr rfl) (h e hmem).2⟩

/-- C10 (counterexample): the session "create nodes 1, 2 and 3, connect 1 to 2, select
node 2, press delete" reaches a state whose edge `1→2` has a target that is no node
id. -/
theorem reachable_dangling_edge :
    Reachable sessionDeleted ∧ ¬ EdgesInNodes sessionDeleted ∧
    sessionDeleted.nodes.map (fun n => n.id) = [1, 3] ∧
    sessionDeleted.edges.map (fun e => (e.source, e.target)) = [(1, 2)] := by
  have h1 : Step Graph.empty (addNode Graph.empty (some "n") 1 ⟨0, 0⟩) := Step.addNode _ _ _ _
  have h2 : Step (addNode Graph.empty (some "n") 1 ⟨0, 0⟩)
      (addNode (addNode Graph.empty (some "n") 1 ⟨0, 0⟩) (some "n") 2 ⟨0, 0⟩) :=
    Step.addNode _ _ _ _
  have h3 : Step (addNode (addNode Graph.empty (some "n") 1 ⟨0, 0⟩) (some "n") 2 ⟨0, 0⟩)
      sessionNodes := Step.addNode _ _ _ _
  have h4 : Step sessionNodes sessionConnected := Step.connect _ _ _ _
  have h5 : Step sessionConnected sessionSelected := Step.select _ _ (by decide)
  have h6 : Step sessionSelected sessionDeleted := Step.delete _
  refine ⟨?_, by decide, by decide, by decide⟩
  exact Relation.ReflTransGen.tail (Relation.ReflTransGen.tail (Relation.ReflTransGen.tail
    (Relation.ReflTransGen.tail (Relation.ReflTransGen.tail
      (Relation.ReflTransGen.single h1) h2) h3) h4) h5) h6

/-- C10 (amended): in every state reachable from the empty graph by creating nodes,
connecting, changing the selection, and deleting only under a selection in which every
edge incident to a selected node is itself selected, each edge has its source and its
target among the ids of the current nodes. -/
theorem guardedReachable_edgesInNodes (g : Graph) (h : GuardedReachable g) :
    EdgesInNodes g := by
  induction h with
  | refl => intro e he; simp [Graph.empty] at he
  | tail _ hstep ih =>
    cases hstep with
    | addNode label now pos => exact edgesInNodes_addNode _ label now pos ih
    | connect s t eid => exact edgesInNodes_onConnect _ s t eid ih
    | select _ hsel => exact edgesInNodes_select _ _ hsel ih
    | delete hsel => exact edgesInNodes_handleDelete _ hsel ih

theorem guardedReachable_edgesInNodes_witness :
    GuardedReachable sessionChainDeleted ∧
    sessionChainDeleted.nodes.map (fun n => n.id) = [1, 2] ∧
    sessionChainDeleted.edges.map (fun e => (e.source, e.target)) = [(1, 2)] ∧
    EdgesInNodes sessionChainDeleted := by
  have h1 : GuardedStep Graph.empty (addNode Graph.empty (some "n") 1 ⟨0, 0⟩) :=
    GuardedStep.addNode _ _ _ _
  have h2 : GuardedStep (addNode Graph.empty (some "n") 1 ⟨0, 0⟩)
      (addNode (addNode Graph.empty (some "n") 1 ⟨0, 0⟩) (some "n") 2 ⟨0, 0⟩) :=
    GuardedStep.addNode _ _ _ _
  have h3 : GuardedStep
      (addNode (addNode Graph.empty (some "n") 1 ⟨0, 0⟩) (some "n") 2 ⟨0, 0⟩)
      sessionNodes := GuardedStep.addNode _ _ _ _
  have h4 : GuardedStep sessionNodes sessionConnected := GuardedStep.connect _ _ _ _
  have h5 : GuardedStep sessionConnected sessionChain := GuardedStep.connect _ _ _ _
  have h6 : GuardedStep sessionChain sessionChainSelected :=
    GuardedStep.select _ _ (by decide)
  have h7 : GuardedStep sessionChainSelected sessionChainDeleted :=
    GuardedStep.delete _ (by decide)
  have hreach : GuardedReachable sessionChainDeleted :=
    Relation.ReflTransGen.tail (Relation.ReflTransGen.tail (Relation.ReflTransGen.tail
      (Relation.ReflTransGen.tail (Relation.ReflTransGen.tail (Relation.ReflTransGen.tail
        (Relation.ReflTransGen.single h1) h2) h3) h4) h5) h6) h7
  exact ⟨hreach, by decide, by decide,
    guardedReachable_edgesInNodes sessionChainDeleted hreach⟩

/-! ## Node ids under creation and deletion -/

theorem selectionChange_ids (g g1 : Graph) (hsel : SelectionChange g g1) :
    g1.nodes.map (fun n => n.id) = g.nodes.map (fun n => n.id) := by
  have := congrArg (List.map (fun n : Node => n.id)) hsel.1
  simpa [List.map_map, Function.comp_def, Node.unselect] using this

theorem uniqueIds_addNode (g : Graph) (label : Option String) (now : Nat) (pos : Position)
    (hfresh : ¬ IsNodeId g.nodes now) (h : UniqueIds g) :
    UniqueIds (addNode g label now pos) := by
  unfold addNode
  cases label with
  | none => exact h
  | some l =>
    by_cases hl : l = ""
    · simp only [hl, if_true]; exact h
    · simp only [hl, if_false]
      unfold UniqueIds at h ⊢
      rw [isNodeId_iff_mem_map] at hfresh
      simp only [List.map_append, List.map_cons, List.map_nil]
      rw [List.nodup_append]
      refine ⟨h, by simp, ?_⟩
      intro a ha hb
      simp only [List.mem_singleton] at hb
      exact hfresh (hb ▸ ha)

theorem uniqueIds_handleDelete (g : Graph) (h : UniqueIds g) : UniqueIds (handleDelete g) := by
  unfold UniqueIds at h ⊢
  exact List.Nodup.sublist (List.Sublist.map _ (List.filter_sublist _)) h

/-- C11 (counterexample): two creations within the same millisecond give two nodes
with the same id. -/
theorem sameMillisecond_duplicate_ids :
    NodeReachable sameMillisecond ∧ ¬ UniqueIds sameMillisecond ∧
    sameMillisecond.nodes.map (fun n => n.id) = [5, 5] := by
  have h1 : NodeStep Graph.empty (addNode Graph.empty (some "a") 5 ⟨0, 0⟩) :=
    NodeStep.addNode _ _ _ _
  have h2 : NodeStep (addNode Graph.empty (some "a") 5 ⟨0, 0⟩) sameMillisecond :=
    NodeStep.addNode _ _ _ _
  exact ⟨Relation.ReflTransGen.tail (Relation.ReflTransGen.single h1) h2,
    by decide, by decide⟩

/-- C11 (amended): in every state reachable from the empty graph by creating and
deleting nodes, where each creation reads a clock value that is not the id of a node
then in the list, no two nodes have the same id. -/
theorem freshReachable_uniqueIds (g : Graph) (h : FreshReachable g) : UniqueIds g := by
  induction h with
  | refl => simp [UniqueIds, Graph.empty]
  | tail _ hstep ih =>
    cases hstep with
    | addNode label now pos hfresh => exact uniqueIds_addNode _ label now pos hfresh ih
    | select _ hsel =>
      unfold UniqueIds at ih ⊢
      rw [selectionChange_ids _ _ hsel]
      exact ih
    | delete => exact uniqueIds_handleDelete _ ih

theorem freshReachable_uniqueIds_witness :
    FreshReachable nextMillisecond ∧ nextMillisecond.nodes.map (fun n => n.id) = [5, 6] ∧
    UniqueIds nextMillisecond := by
  have h1 : FreshStep Graph.empty (addNode Graph.empty (some "a") 5 ⟨0, 0⟩) :=
    FreshStep.addNode _ _ _ _ (by decide)
  have h2 : FreshStep (addNode Graph.empty (some "a") 5 ⟨0, 0⟩) nextMillisecond :=
    FreshStep.addNode _ _ _ _ (by decide)
  have hreach : FreshReachable nextMillisecond :=
    Relation.ReflTransGen.tail (Relation.ReflTransGen.single h1) h2
  exact ⟨hreach, by decide, freshReachable_uniqueIds nextMillisecond hreach⟩

/-- C12 (failing input): on the reachable state with nodes 1, 3 and the edge `1→2`
(target deleted), and on nodes 2, 3 with the edge `1→2` (source deleted),
`validateDAG` raises a `TypeError` instead of returning a status. -/
theorem validateDAG_dangling_typeError :
    (2 ≤ sessionDeleted.nodes.length ∧ ¬ EdgesInNodes sessionDeleted ∧
      validateDAG sessionDeleted = .error Fault.typeError) ∧
    (2 ≤ danglingSource.nodes.length ∧ ¬ EdgesInNodes danglingSource ∧
      validateDAG danglingSource = .error Fault.typeError) := by
  decide

/-! ## The validator reads ids and endpoints only -/

theorem initAdj_congr : ∀ (ns ns1 : List Node) (adj : Adj),
    ns.map (fun n => n.id) = ns1.map (fun n => n.id) → initAdj adj ns = initAdj adj ns1 := by
  intro ns
  induction ns with
  | nil =>
    intro ns1 adj h
    cases ns1 with
    | nil => rfl
    | cons b bs => simp at h
  | cons a as ih =>
    intro ns1 adj h
    cases ns1 with
    | nil => simp at h
    | cons b bs =>
      simp only [List.map_cons, List.cons.injEq] at h
      simp only [initAdj, h.1]
      exact ih bs _ h.2

theorem edgeCallback_congr (adj : Adj) (e e1 : Edge) (hs : e.source = e1.source)
    (ht : e.target = e1.target) : edgeCallback adj e = edgeCallback adj e1 := by
  unfold edgeCallback
  rw [hs, ht]

theorem forEachEdge_congr : ∀ (es es1 : List Edge) (adj : Adj),
    es.map (fun e => (e.source, e.target)) = es1.map (fun e => (e.source, e.target)) →
    forEachEdge adj es = forEachEdge adj es1 := by
  intro es
  induction es with
  | nil =>
    intro es1 adj h
    cases es1 with
    | nil => rfl
    | cons b bs => simp at h
  | cons a as ih =>
    intro es1 adj h
    cases es1 with
    | nil => simp at h
    | cons b bs =>
      simp only [List.map_cons, List.cons.injEq, Prod.mk.injEq] at h
      simp only [forEachEdge, edgeCallback_congr adj a b h.1.1 h.1.2]
      rcases edgeCallback adj b with f | ⟨adj1, r⟩
      · rfl
      · exact ih bs adj1 h.2

theorem cycleLoop_congr (adj : Adj) (fuel : Nat) : ∀ (ns ns1 : List Node) (m : Marks),
    ns.map (fun n => n.id) = ns1.map (fun n => n.id) →
    cycleLoop adj fuel ns m = cycleLoop adj fuel ns1 m := by
  intro ns
  induction ns with
  | nil =>
    intro ns1 m h
    cases ns1 with
    | nil => rfl
    | cons b bs => simp at h
  | cons a as ih =>
    intro ns1 m h
    cases ns1 with
    | nil => simp at h
    | cons b bs =>
      simp only [List.map_cons, List.cons.injEq] at h
      simp only [cycleLoop, h.1]
      by_cases hv : m.visited b.id = false
      · simp only [hv, if_true]
        rcases hasCycle adj fuel b.id m with f | ⟨c, m1⟩
        · rfl
        · cases c with
          | true => rfl
          | false => exact ih bs m1 h.2
      · simp only [hv, if_false]
        exact ih bs m h.2

theorem connectedIdSet_eq (es : List Edge) :
    connectedIdSet es =
      (es.map (fun e => (e.source, e.target))).foldl
        (fun s p => setAdd (setAdd s p.1) p.2) [] := by
  unfold connectedIdSet
  rw [List.foldl_map]

theorem validateDAG_congr (g g1 : Graph)
    (hn : g.nodes.map (fun n => n.id) = g1.nodes.map (fun n => n.id))
    (he : g.edges.map (fun e => (e.source, e.target)) =
      g1.edges.map (fun e => (e.source, e.target))) :
    validateDAG g = validateDAG g1 := by
  have hlen : g.nodes.length = g1.nodes.length := by
    have := congrArg List.length hn
    simpa using this
  have hset : nodeIdSet g.nodes = nodeIdSet g1.nodes := by
    unfold nodeIdSet
    rw [hn]
  have hconn : connectedIdSet g.edges = connectedIdSet g1.edges := by
    rw [connectedIdSet_eq, connectedIdSet_eq, he]
  have hfuel : dfsFuel g = dfsFuel g1 := by
    unfold dfsFuel
    rw [hlen]
  unfold validateDAG
  rw [hlen, initAdj_congr g.nodes g1.nodes _ hn, forEachEdge_congr g.edges g1.edges _ he,
    hset, hconn, hfuel]
  by_cases h2 : g1.nodes.length < 2
  · simp only [h2, if_true]
  · simp only [h2, if_false]
    rcases forEachEdge (initAdj (fun _ => none) g1.nodes) g1.edges with f | adj
    · rfl
    · simp only
      rw [cycleLoop_congr adj (dfsFuel g1) g.nodes g1.nodes initMarks hn]

/-- C13: two graphs whose node lists carry the same ids in the same order and whose
edge lists carry the same (source, target) pairs in the same order get the same
result from `validateDAG`, whatever their labels, positions, selection flags and
edge ids are; in particular two calls on one graph agree. -/
theorem validateDAG_ids_and_endpoints_only (g g1 : Graph)
    (hn : g.nodes.map (fun n => n.id) = g1.nodes.map (fun n => n.id))
    (he : g.edges.map (fun e => (e.source, e.target)) =
      g1.edges.map (fun e => (e.source, e.target))) :
    validateDAG g = validateDAG g1 ∧ validateDAG g = validateDAG g :=
  ⟨validateDAG_congr g g1 hn he, rfl⟩

theorem validateDAG_ids_and_endpoints_only_witness :
    diamond ≠ diamondRestyled ∧
    diamond.nodes.map (fun n => n.id) = diamondRestyled.nodes.map (fun n => n.id) ∧
    diamond.edges.map (fun e => (e.source, e.target)) =
      diamondRestyled.edges.map (fun e => (e.source, e.target)) ∧
    validateDAG diamond = validateDAG diamondRestyled :=
  ⟨by decide, by decide, by decide,
    (validateDAG_ids_and_endpoints_only diamond diamondRestyled (by decide) (by decide)).1⟩

/-! ## The statuses that can be returned -/

theorem validateDAG_ne_selfLoop (g : Graph) : validateDAG g ≠ .ok Status.SelfLoop := by
  unfold validateDAG
  by_cases hlen : g.nodes.length < 2
  · simp [hlen]
  · simp only [hlen, if_false]
    rcases forEachEdge (initAdj (fun _ => none) g.nodes) g.edges with f | adj
    · simp
    · simp only
      rcases cycleLoop adj (dfsFuel g) g.nodes initMarks with f | b
      · simp
      · cases b with
        | true => simp
        | false =>
          simp only
          split <;> simp

/-- C15: on a graph with at least two nodes and no dangling edge, the result is
`'Invalid: Cycle detected'` exactly when the graph has a directed cycle, a self-loop
edge being a cycle of length one; and `'Invalid: Self-loop'` is the result for no
graph at all. -/
theorem validateDAG_cycleDetected_iff (g : Graph) (hlen : 2 ≤ g.nodes.length)
    (hin : EdgesInNodes g) :
    (validateDAG g = .ok Status.CycleDetected ↔ HasDirectedCycle g) ∧
    (∀ g1 : Graph, validateDAG g1 ≠ .ok Status.SelfLoop) := by
  obtain ⟨hyes, hdisc, hvalid⟩ := validateDAG_inNodes g hlen hin
  refine ⟨⟨?_, hyes⟩, validateDAG_ne_selfLoop⟩
  intro hres
  by_contra hc
  by_cases hiso : ∃ k, IsNodeId g.nodes k ∧ ¬ Touched g k
  · rw [hdisc hc hiso] at hres
    cases hres
  · have hall : ∀ k, IsNodeId g.nodes k → Touched g k := by
      intro k hk
      by_contra hnt
      exact hiso ⟨k, hk, hnt⟩
    rw [hvalid hc hall] at hres
    cases hres

theorem validateDAG_cycleDetected_iff_witness :
    (2 ≤ selfLoopGraph.nodes.length ∧ EdgesInNodes selfLoopGraph ∧
      validateDAG selfLoopGraph = .ok Status.CycleDetected ∧
      HasDirectedCycle selfLoopGraph) ∧
    (2 ≤ diamond.nodes.length ∧ EdgesInNodes diamond ∧
      validateDAG diamond ≠ .ok Status.CycleDetected ∧ ¬ HasDirectedCycle diamond) :=
  ⟨⟨by decide, by decide, by decide,
      (validateDAG_cycleDetected_iff selfLoopGraph (by decide) (by decide)).1.mp (by decide)⟩,
    ⟨by decide, by decide, by decide,
      fun hc => absurd
        ((validateDAG_cycleDetected_iff diamond (by decide) (by decide)).1.mpr hc)
        (by decide)⟩⟩

/-! ## Every node is entered at most once -/

theorem forNeighborsLog_fst
    (callL : NodeId → Marks → List NodeId → Except Fault (Bool × Marks) × List NodeId)
    (call : NodeId → Marks → Except Fault (Bool × Marks))
    (h : ∀ n m log, (callL n m log).1 = call n m) :
    ∀ (ns : List NodeId) (m : Marks) (log : List NodeId),
      (forNeighborsLog callL ns m log).1 = forNeighbors call ns m := by
  intro ns
  induction ns with
  | nil => intro m log; rfl
  | cons nb rest ih =>
    intro m log
    by_cases hv : m.visited nb = false
    · have hcall := h nb m log
      rcases hc : callL nb m log with ⟨r, log1⟩
      rw [hc] at hcall
      simp only at hcall
      simp only [forNeighborsLog, forNeighbors, hv, if_true, hc, ← hcall]
      rcases r with f | ⟨b, m1⟩
      · rfl
      · cases b with
        | true => rfl
        | false =>
          simp only
          by_cases hr : m1.recStack nb = true
          · simp only [hr, if_true]
          · simp only [hr, if_false]
            exact ih m1 log1
    · have hv1 : m.visited nb = true := by simpa using hv
      simp only [forNeighborsLog, forNeighbors, hv1, Bool.true_eq_false, if_false]
      by_cases hr : m.recStack nb = true
      · simp only [hr, if_true]
      · simp only [hr, if_false]
        exact ih m log

theorem hasCycleLog_fst (adj : Adj) : ∀ (fuel : Nat) (n : NodeId) (m : Marks)
    (log : List NodeId), (hasCycleLog adj fuel n m log).1 = hasCycle adj fuel n m := by
  intro fuel
  induction fuel with
  | zero => intro n m log; rfl
  | succ fuel ih =>
    intro n m log
    rcases hadj : adj n with _ | nbrs
    · simp only [hasCycleLog, hasCycle, hadj]
    · have hloop := forNeighborsLog_fst (hasCycleLog adj fuel) (hasCycle adj fuel) ih nbrs
        (m.enter n) (n :: log)
      rcases hc : forNeighborsLog (hasCycleLog adj fuel) nbrs (m.enter n) (n :: log)
        with ⟨r, log1⟩
      rw [hc] at hloop
      simp only at hloop
      simp only [hasCycleLog, hasCycle, hadj, hc, ← hloop]
      rcases r with f | ⟨b, m1⟩
      · rfl
      · cases b <;> rfl

theorem cycleLoopLog_fst (adj : Adj) (fuel : Nat) : ∀ (ns : List Node) (m : Marks)
    (log : List NodeId), (cycleLoopLog adj fuel ns m log).1 = cycleLoop adj fuel ns m := by
  intro ns
  induction ns with
  | nil => intro m log; rfl
  | cons n ns ih =>
    intro m log
    by_cases hv : m.visited n.id = false
    · have hcall := hasCycleLog_fst adj fuel n.id m log
      rcases hc : hasCycleLog adj fuel n.id m log with ⟨r, log1⟩
      rw [hc] at hcall
      simp only at hcall
      simp only [cycleLoopLog, cycleLoop, hv, if_true, hc, ← hcall]
      rcases r with f | ⟨b, m1⟩
      · rfl
      · cases b with
        | true => rfl
        | false => exact ih m1 log1
    · have hv1 : m.visited n.id = true := by simpa using hv
      simp only [cycleLoopLog, cycleLoop, hv1, Bool.true_eq_false, if_false]
      exact ih m log

theorem logged_enter (m : Marks) (n : NodeId) (log : List NodeId) (h : Logged m log)
    (hv : m.visited n = false) : Logged (m.enter n) (n :: log) := by
  refine ⟨List.nodup_cons.mpr ⟨?_, h.1⟩, ?_⟩
  · intro hn
    have := h.2 n hn
    rw [hv] at this
    cases this
  · intro x hx
    by_cases hxn : x = n
    · simp [Marks.enter, assign, hxn]
    · have hx1 : x ∈ log := by
        rcases List.mem_cons.mp hx with h1 | h1
        · exact absurd h1 hxn
        · exact h1
      simpa [Marks.enter, assign, hxn] using h.2 x hx1

theorem forNeighborsLog_logged
    (callL : NodeId → Marks → List NodeId → Except Fault (Bool × Marks) × List NodeId)
    (hcall : ∀ n m log, Logged m log → m.visited n = false → LogPost (callL n m log)) :
    ∀ (ns : List NodeId) (m : Marks) (log : List NodeId), Logged m log →
      LogPost (forNeighborsLog callL ns m log) := by
  intro ns
  induction ns with
  | nil => intro m log h; exact h
  | cons nb rest ih =>
    intro m log h
    by_cases hv : m.visited nb = false
    · have hpost := hcall nb m log h hv
      rcases hc : callL nb m log with ⟨r, log1⟩
      rw [hc] at hpost
      simp only [forNeighborsLog, hv, if_true, hc]
      rcases r with f | ⟨b, m1⟩
      · exact hpost
      · cases b with
        | true => exact hpost
        | false =>
          simp only
          by_cases hr : m1.recStack nb = true
          · simp only [hr, if_true]
            exact hpost
          · simp only [hr, if_false]
            exact ih m1 log1 hpost
    · have hv1 : m.visited nb = true := by simpa using hv
      simp only [forNeighborsLog, hv1, Bool.true_eq_false, if_false]
      by_cases hr : m.recStack nb = true
      · simp only [hr, if_true]
        exact h
      · simp only [hr, if_false]
        exact ih m log h

theorem hasCycleLog_logged (adj : Adj) : ∀ (fuel : Nat) (n : NodeId) (m : Marks)
    (log : List NodeId), Logged m log → m.visited n = false →
      LogPost (hasCycleLog adj fuel n m log) := by
  intro fuel
  induction fuel with
  | zero =>
    intro n m log h hv
    exact (logged_enter m n log h hv).1
  | succ fuel ih =>
    intro n m log h hv
    have h1 := logged_enter m n log h hv
    rcases hadj : adj n with _ | nbrs
    · simp only [hasCycleLog, hadj]
      exact h1.1
    · have hloop := forNeighborsLog_logged (hasCycleLog adj fuel) ih nbrs (m.enter n)
        (n :: log) h1
      rcases hc : forNeighborsLog (hasCycleLog adj fuel) nbrs (m.enter n) (n :: log)
        with ⟨r, log1⟩
      rw [hc] at hloop
      simp only [hasCycleLog, hadj, hc]
      rcases r with f | ⟨b, m1⟩
      · exact hloop
      · cases b with
        | true => exact hloop
        | false => exact hloop

theorem cycleLoopLog_nodup (adj : Adj) (fuel : Nat) : ∀ (ns : List Node) (m : Marks)
    (log : List NodeId), Logged m log → (cycleLoopLog adj fuel ns m log).2.Nodup := by
  intro ns
  induction ns with
  | nil => intro m log h; exact h.1
  | cons n ns ih =>
    intro m log h
    by_cases hv : m.visited n.id = false
    · have hpost := hasCycleLog_logged adj fuel n.id m log h hv
      rcases hc : hasCycleLog adj fuel n.id m log with ⟨r, log1⟩
      rw [hc] at hpost
      simp only [cycleLoopLog, hv, if_true, hc]
      rcases r with f | ⟨b, m1⟩
      · exact hpost
      · cases b with
        | true => exact hpost.1
        | false => exact ih m1 log1 hpost
    · have hv1 : m.visited n.id = true := by simpa using hv
      simp only [cycleLoopLog, hv1, Bool.true_eq_false, if_false]
      exact ih m log h

/-- C14: on every graph without dangling edges (cycles, self-loops and parallel edges
included) the search of `validateDAG` terminates within the recursion bound and
`validateDAG` returns a status; the log of the run shows that `hasCycle` is entered
at most once per node id. -/
theorem validateDAG_terminates (g : Graph) (hin : EdgesInNodes g) :
    (∃ s, validateDAG g = .ok s) ∧
    ∃ adj b, forEachEdge (initAdj (fun _ => none) g.nodes) g.edges = .ok adj ∧
      cycleLoop adj (dfsFuel g) g.nodes initMarks = .ok b ∧
      (cycleLoopLog adj (dfsFuel g) g.nodes initMarks []).1 = .ok b ∧
      (cycleLoopLog adj (dfsFuel g) g.nodes initMarks []).2.Nodup := by
  obtain ⟨adj, hrun, hadj⟩ := buildAdj_spec g (fun e he => (hin e he).1)
  obtain ⟨hyes, hno⟩ := cycleLoop_graph g hin adj hadj
  have hb : ∃ b, cycleLoop adj (dfsFuel g) g.nodes initMarks = .ok b := by
    by_cases hc : HasDirectedCycle g
    · exact ⟨true, hyes hc⟩
    · exact ⟨false, hno hc⟩
  obtain ⟨b, hb⟩ := hb
  refine ⟨?_, adj, b, hrun, hb, ?_, ?_⟩
  · by_cases hlen : g.nodes.length < 2
    · exact ⟨Status.TooFewNodes, by simp [validateDAG, hlen]⟩
    · simp only [validateDAG, hlen, if_false, hrun, hb]
      cases b with
      | true => exact ⟨_, rfl⟩
      | false =>
        simp only
        split
        · exact ⟨_, rfl⟩
        · exact ⟨_, rfl⟩
  · rw [cycleLoopLog_fst, hb]
  · exact cycleLoopLog_nodup adj (dfsFuel g) g.nodes initMarks [] ⟨List.nodup_nil, by simp⟩

theorem validateDAG_terminates_witness :
    EdgesInNodes tangled ∧ ¬ NoSelfLoop tangled ∧ (∃ s, validateDAG tangled = .ok s) :=
  ⟨by decide, by decide, (validateDAG_terminates tangled (by decide)).1⟩

/-! ## Self-loop edges are kept out at connection time -/

theorem noSelfLoop_addNode (g : Graph) (label : Option String) (now : Nat) (pos : Position)
    (h : NoSelfLoop g) : NoSelfLoop (addNode g label now pos) := by
  have hedges : (addNode g label now pos).edges = g.edges := by
    unfold addNode
    cases label with
    | none => rfl
    | some l => by_cases hl : l = "" <;> simp [hl]
  intro e he
  rw [hedges] at he
  exact h e he

theorem noSelfLoop_onConnect (g : Graph) (s t : NodeId) (eid : String)
    (h : NoSelfLoop g) : NoSelfLoop (onConnect g s t eid) := by
  unfold onConnect
  by_cases hok : (isValidConnection g.nodes s t).truthy = true
  · rw [if_pos hok]
    obtain ⟨hst, _, _⟩ := (isValidConnection_truthy g.nodes s t).mp hok
    intro e he
    simp only [addEdge, List.mem_append, List.mem_singleton] at he
    rcases he with he | rfl
    · exact h e he
    · exact hst
  · rw [if_neg hok]
    exact h

theorem noSelfLoop_select (g g1 : Graph) (hsel : SelectionChange g g1)
    (h : NoSelfLoop g) : NoSelfLoop g1 := by
  intro e hmem
  have h1 : e.unselect ∈ g1.edges.map Edge.unselect := List.mem_map_of_mem _ hmem
  rw [hsel.2] at h1
  obtain ⟨e0, he0, heq⟩ := List.mem_map.mp h1
  have hs : e0.source = e.source := by
    have := congrArg Edge.source heq
    simpa [Edge.unselect] using this
  have ht : e0.target = e.target := by
    have := congrArg Edge.target heq
    simpa [Edge.unselect] using this
  rw [← hs, ← ht]
  exact h e0 he0

theorem noSelfLoop_handleDelete (g : Graph) (h : NoSelfLoop g) :
    NoSelfLoop (handleDelete g) := by
  intro e he
  simp only [handleDelete, List.mem_filter] at he
  exact h e he.1

theorem noSelfLoop_of_reachable (g : Graph) (h : Reachable g) : NoSelfLoop g := by
  induction h with
  | refl => intro e he; simp [Graph.empty] at he
  | tail _ hstep ih =>
    cases hstep with
    | addNode label now pos => exact noSelfLoop_addNode _ label now pos ih
    | connect s t eid => exact noSelfLoop_onConnect _ s t eid ih
    | select _ hsel => exact noSelfLoop_select _ _ hsel ih
    | delete => exact noSelfLoop_handleDelete _ ih

theorem hasDirectedCycle_of_selfLoop (g : Graph) (h : ∃ e ∈ g.edges, e.source = e.target) :
    HasDirectedCycle g := by
  obtain ⟨e, he, hst⟩ := h
  exact ⟨e.source, Relation.TransGen.single ⟨e, he, rfl, hst.symm⟩⟩

/-- C5 (amended): no state reachable from the empty graph by creating nodes,
connecting, changing the selection and deleting has an edge with source equal to
target, since `onConnect` adds an edge only if `isValidConnection` accepts it; and
called on a graph with at least two nodes, no dangling edge and such an edge,
`validateDAG` reports the self-loop status or the cycle status, ahead of
`'Invalid: All nodes must be connected'` and `'Valid DAG'`. -/
theorem selfLoop_excluded_or_invalid (g : Graph) :
    (Reachable g → NoSelfLoop g) ∧
    (2 ≤ g.nodes.length → EdgesInNodes g → (∃ e ∈ g.edges, e.source = e.target) →
      validateDAG g = .ok Status.SelfLoop ∨ validateDAG g = .ok Status.CycleDetected) := by
  refine ⟨noSelfLoop_of_reachable g, ?_⟩
  intro hlen hin hloop
  exact Or.inr ((validateDAG_inNodes g hlen hin).1 (hasDirectedCycle_of_selfLoop g hloop))

theorem selfLoop_excluded_or_invalid_witness :
    (Reachable sessionSelfConnect ∧ sessionSelfConnect.nodes.map (fun n => n.id) = [1, 2, 3] ∧
      sessionSelfConnect.edges = [] ∧ NoSelfLoop sessionSelfConnect) ∧
    (2 ≤ selfLoopGraph.nodes.length ∧ EdgesInNodes selfLoopGraph ∧
      (∃ e ∈ selfLoopGraph.edges, e.source = e.target) ∧
      (validateDAG selfLoopGraph = .ok Status.SelfLoop ∨
        validateDAG selfLoopGraph = .ok Status.CycleDetected)) := by
  have h1 : Step Graph.empty (addNode Graph.empty (some "n") 1 ⟨0, 0⟩) := Step.addNode _ _ _ _
  have h2 : Step (addNode Graph.empty (some "n") 1 ⟨0, 0⟩)
      (addNode (addNode Graph.empty (some "n") 1 ⟨0, 0⟩) (some "n") 2 ⟨0, 0⟩) :=
    Step.addNode _ _ _ _
  have h3 : Step (addNode (addNode Graph.empty (some "n") 1 ⟨0, 0⟩) (some "n") 2 ⟨0, 0⟩)
      sessionNodes := Step.addNode _ _ _ _
  have h4 : Step sessionNodes sessionSelfConnect := Step.connect _ _ _ _
  have hreach : Reachable sessionSelfConnect :=
    Relation.ReflTransGen.tail (Relation.ReflTransGen.tail (Relation.ReflTransGen.tail
      (Relation.ReflTransGen.single h1) h2) h3) h4
  exact ⟨⟨hreach, by decide, by decide,
      (selfLoop_excluded_or_invalid sessionSelfConnect).1 hreach⟩,
    ⟨by decide, by decide, by decide,
      (selfLoop_excluded_or_invalid selfLoopGraph).2 (by decide) (by decide) (by decide)⟩⟩

end PipelineEditor
